import Mathlib

/-!
Verification of the gexbot-faker replay server core against its specification.

Strings from the Go source are modelled as lists of characters (`Str`), Go
maps as association lists, Go panics as `Option.none`, and fallible calls as
`Except`.  Each definition mirrors one Go function and keeps its name.
-/

namespace GexFaker

/-- Go strings, modelled as lists of characters. -/
abbrev Str := List Char

/-- Embeds a Lean string literal into the `Str` model. -/
def str (s : String) : Str := s.data

/-! ## Cursor store: internal/data/cache.go -/

/-- Model of `CacheMode` from cache.go: how playback handles end-of-data. -/
inductive CacheMode where
  | exhaust
  | rotation
deriving DecidableEq

/-- The `indexes map[string]int` field of `IndexCache`, as an association list. -/
abbrev IndexMap := List (Str × Nat)

/-- Lookup in an association list (`nil` when the key is absent). -/
def assocFind? {β : Type} (m : List (Str × β)) (k : Str) : Option β :=
  (m.find? (fun p => decide (p.1 = k))).map (fun p => p.2)

/-- Go map assignment `m[k] = v`: replace the binding if present, else add it. -/
def assocSet {β : Type} (m : List (Str × β)) (k : Str) (v : β) : List (Str × β) :=
  if (assocFind? m k).isSome then
    m.map (fun p => if p.1 = k then (k, v) else p)
  else
    m ++ [(k, v)]

/-- Go map read `m[k]` on a `map[string]int`: zero value when absent. -/
def mapGet (m : IndexMap) (k : Str) : Nat := (assocFind? m k).getD 0

/-- Model of `CacheKey` from cache.go: composite key `ticker/pkg/category/apiKey`. -/
def CacheKey (ticker pkg category apiKey : Str) : Str :=
  ticker ++ str "/" ++ pkg ++ str "/" ++ category ++ str "/" ++ apiKey

/-- Model of `SharedCacheKey` from cache.go: shared-mode key `ticker/pkg/apiKey`. -/
def SharedCacheKey (ticker pkg apiKey : Str) : Str :=
  ticker ++ str "/" ++ pkg ++ str "/" ++ apiKey

/-- Model of `IndexCache.GetAndAdvance` from cache.go.  Returns the pre-advance index,
the exhausted flag and the updated map.  The Go expressions `idx % dataLength`
and `(idx+1) % dataLength` panic when `dataLength` is zero; a panic is
modelled as `none`. -/
def GetAndAdvance (mode : CacheMode) (m : IndexMap) (key : Str) (dataLength : Nat) :
    Option (Nat × Bool × IndexMap) :=
  let idx := mapGet m key
  if mode = .exhaust ∧ dataLength ≤ idx then
    some (idx, true, m)
  else
    (if mode = .rotation ∧ dataLength ≤ idx then
        (if dataLength = 0 then none else some (idx % dataLength))
      else some idx).bind fun currentIdx =>
    (if mode = .rotation then
        (if dataLength = 0 then none else some ((idx + 1) % dataLength))
      else some (idx + 1)).bind fun next =>
    some (currentIdx, false, assocSet m key next)

/-- Model of `IndexCache.Reset` from cache.go: with the empty key, clear everything and
return the old size; otherwise delete the keys that are strictly longer than
`"/" ++ apiKey` and end with it, returning how many were deleted. -/
def ResetCache (m : IndexMap) (apiKey : Str) : Nat × IndexMap :=
  if apiKey = [] then
    (m.length, [])
  else
    let sfx := str "/" ++ apiKey
    let hits : Str → Bool := fun k => decide (sfx.length < k.length) && decide (sfx <:+ k)
    ((m.filter (fun p => hits p.1)).length, m.filter (fun p => ! hits p.1))

/-- Model of `IndexCache.GetIndex` from cache.go: current index without advancing. -/
def GetIndex (m : IndexMap) (key : Str) : Nat := mapGet m key

/-! ## Record store: internal/data/loader.go and internal/data/memory.go -/

/-- Model of `DataKey` from loader.go: composite key `ticker/pkg/category`. -/
def DataKey (ticker pkg category : Str) : Str :=
  ticker ++ str "/" ++ pkg ++ str "/" ++ category

/-- Errors of the data loader (loader.go). -/
inductive LoaderErr where
  | notFound
  | indexOutOfBounds
  | unmarshal
deriving DecidableEq

/-- The in-memory record store: data key to raw record lines. -/
abbrev Loader := List (Str × List Str)

/-- Model of `MemoryLoader.loadJSONL` from memory.go: keep the non-empty lines of a
file, in order. -/
def loadJSONL (lines : List Str) : List Str :=
  lines.filter (fun l => ! l.isEmpty)

/-- The walk inside `NewMemoryLoader`: every `.jsonl` file is loaded with
`loadJSONL` and stored under its data key, unconditionally. -/
def buildData (files : List (Str × List Str)) : Loader :=
  files.foldl (fun m kf => assocSet m kf.1 (loadJSONL kf.2)) []

/-- Model of `NewMemoryLoader` from memory.go: construction fails only when no file at
all was registered. -/
def NewMemoryLoader (files : List (Str × List Str)) : Option Loader :=
  let d := buildData files
  if d.isEmpty then none else some d

/-- Model of `MemoryLoader.Exists` from memory.go. -/
def ExistsKey (ld : Loader) (ticker pkg category : Str) : Bool :=
  (assocFind? ld (DataKey ticker pkg category)).isSome

/-- Model of `MemoryLoader.GetLength` from memory.go. -/
def GetLength (ld : Loader) (ticker pkg category : Str) : Except LoaderErr Nat :=
  match assocFind? ld (DataKey ticker pkg category) with
  | none => .error .notFound
  | some d => .ok d.length

/-- Model of `MemoryLoader.GetRawAtIndex` from memory.go.  The Go index is an `int`,
so it is modelled as `Int` and both bounds are checked. -/
def GetRawAtIndex (ld : Loader) (ticker pkg category : Str) (index : Int) :
    Except LoaderErr Str :=
  match assocFind? ld (DataKey ticker pkg category) with
  | none => .error .notFound
  | some d =>
      if index < 0 then .error .indexOutOfBounds
      else
        match d.get? index.toNat with
        | none => .error .indexOutOfBounds
        | some r => .ok r

/-- Model of `MemoryLoader.GetAtIndex` from memory.go: raw read followed by JSON
unmarshalling, the latter supplied as `parse`. -/
def GetAtIndex {β : Type} (ld : Loader) (parse : Str → Option β)
    (ticker pkg category : Str) (index : Int) : Except LoaderErr β :=
  match GetRawAtIndex ld ticker pkg category index with
  | .error e => .error e
  | .ok raw =>
      match parse raw with
      | none => .error .unmarshal
      | some b => .ok b

/-- Model of `MemoryLoader.GetLoadedKeys` from memory.go. -/
def GetLoadedKeys (ld : Loader) : List Str := ld.map (fun p => p.1)

/-! ## Request handler: internal/server/handlers.go -/

/-- Outcome of a single-record request.  `ok` carries the served index and the
decoded record; `notFound` carries the 404 error message; `panicked` models a
Go runtime panic inside the handler. -/
inductive HandlerOutcome (β : Type) where
  | ok (idx : Nat) (payload : β)
  | notFound (msg : Str)
  | panicked
deriving DecidableEq

/-- Model of `Server.GetClassicGexChain` from handlers.go: existence check, length,
get-and-advance on the composite cache key, exhaustion to 404, indexed read,
decode.  Returns the outcome and the updated cursor map. -/
def GetClassicGexChain {β : Type} (ld : Loader) (mode : CacheMode)
    (parse : Str → Option β) (cache : IndexMap) (ticker aggregation apiKey : Str) :
    HandlerOutcome β × IndexMap :=
  let category := str "gex_" ++ aggregation
  let pkg := str "classic"
  if ¬ ExistsKey ld ticker pkg category then
    (.notFound (str "Data not found for " ++ ticker ++ str "/classic/" ++ aggregation), cache)
  else
    match GetLength ld ticker pkg category with
    | .error _ => (.notFound (str "data not found"), cache)
    | .ok length =>
        let cacheKey := CacheKey ticker pkg category apiKey
        match GetAndAdvance mode cache cacheKey length with
        | none => (.panicked, cache)
        | some (idx, exhausted, cache') =>
            if exhausted then
              (.notFound (str "No more data available"), cache')
            else
              match GetAtIndex ld parse ticker pkg category (idx : Int) with
              | .error .indexOutOfBounds => (.notFound (str "Index out of bounds"), cache')
              | .error .notFound => (.notFound (str "data not found"), cache')
              | .error .unmarshal => (.notFound (str "unmarshal error"), cache')
              | .ok g => (.ok idx g, cache')

/-- Cursor state after `n` successive `GetClassicGexChain` requests. -/
def chainCacheAfter {β : Type} (ld : Loader) (mode : CacheMode) (parse : Str → Option β)
    (ticker aggregation apiKey : Str) (cache : IndexMap) : Nat → IndexMap
  | 0 => cache
  | n + 1 =>
      (GetClassicGexChain ld mode parse
        (chainCacheAfter ld mode parse ticker aggregation apiKey cache n)
        ticker aggregation apiKey).2

/-- Outcome of request number `n` (zero-based) in a run of successive
`GetClassicGexChain` requests. -/
def chainResultAt {β : Type} (ld : Loader) (mode : CacheMode) (parse : Str → Option β)
    (ticker aggregation apiKey : Str) (cache : IndexMap) (n : Nat) : HandlerOutcome β :=
  (GetClassicGexChain ld mode parse
    (chainCacheAfter ld mode parse ticker aggregation apiKey cache n)
    ticker aggregation apiKey).1


/-! ## Association-list lemmas -/

theorem assocFind?_nil {β : Type} (k : Str) : assocFind? ([] : List (Str × β)) k = none := rfl

theorem assocFind?_cons {β : Type} (p : Str × β) (rest : List (Str × β)) (k : Str) :
    assocFind? (p :: rest) k = if p.1 = k then some p.2 else assocFind? rest k := by
  by_cases h : p.1 = k <;> simp [assocFind?, List.find?_cons, h]

theorem assocFind?_replace {β : Type} (m : List (Str × β)) (k : Str) (v : β) :
    (assocFind? m k).isSome →
    assocFind? (m.map (fun p => if p.1 = k then (k, v) else p)) k = some v := by
  induction m with
  | nil => intro h; simp [assocFind?] at h
  | cons p rest ih =>
      intro h
      by_cases hp : p.1 = k
      · simp [hp, assocFind?_cons]
      · rw [assocFind?_cons] at h
        simp only [hp, if_false] at h
        simp only [List.map_cons, if_neg hp, assocFind?_cons, hp, if_false]
        exact ih h

theorem assocFind?_set_self {β : Type} (m : List (Str × β)) (k : Str) (v : β) :
    assocFind? (assocSet m k v) k = some v := by
  unfold assocSet
  by_cases h : (assocFind? m k).isSome
  · simpa [h] using assocFind?_replace m k v h
  · rw [if_neg h]
    rw [show assocFind? (m ++ [(k, v)]) k =
      ((m ++ [(k, v)]).find? (fun p => decide (p.1 = k))).map (fun p => p.2) from rfl]
    rw [List.find?_append]
    have hm : m.find? (fun p => decide (p.1 = k)) = none := by
      unfold assocFind? at h
      cases hf : m.find? (fun p => decide (p.1 = k)) with
      | none => rfl
      | some p => rw [hf] at h; simp at h
    simp [hm, List.find?]

theorem assocFind?_map_replace_ne {β : Type} (m : List (Str × β)) (k k' : Str) (v : β)
    (hne : k' ≠ k) :
    assocFind? (m.map (fun p => if p.1 = k then (k, v) else p)) k' = assocFind? m k' := by
  induction m with
  | nil => rfl
  | cons p rest ih =>
      by_cases hp : p.1 = k
      · have h1 : ¬ ((k, v) : Str × β).1 = k' := fun hh => hne (by simpa using hh.symm)
        have h2 : ¬ p.1 = k' := fun hh => hne (hp.symm.trans hh).symm
        rw [List.map_cons, if_pos hp, assocFind?_cons, assocFind?_cons, if_neg h1, if_neg h2, ih]
      · rw [List.map_cons, if_neg hp, assocFind?_cons, assocFind?_cons, ih]

theorem assocFind?_set_ne {β : Type} (m : List (Str × β)) (k k' : Str) (v : β)
    (hne : k' ≠ k) : assocFind? (assocSet m k v) k' = assocFind? m k' := by
  unfold assocSet
  by_cases h : (assocFind? m k).isSome
  · rw [if_pos h]
    exact assocFind?_map_replace_ne m k k' v hne
  · rw [if_neg h]
    rw [show assocFind? (m ++ [(k, v)]) k' =
      ((m ++ [(k, v)]).find? (fun p => decide (p.1 = k'))).map (fun p => p.2) from rfl]
    rw [List.find?_append]
    cases hf : m.find? (fun p => decide (p.1 = k')) with
    | some p => simp [assocFind?, hf]
    | none =>
        simp [assocFind?, hf, List.find?, Ne.symm hne]

theorem mapGet_set_self (m : IndexMap) (k : Str) (v : Nat) :
    mapGet (assocSet m k v) k = v := by
  simp [mapGet, assocFind?_set_self]

theorem mapGet_set_ne (m : IndexMap) (k k' : Str) (v : Nat) (hne : k' ≠ k) :
    mapGet (assocSet m k v) k' = mapGet m k' := by
  simp [mapGet, assocFind?_set_ne m k k' v hne]

/-! ## GetAndAdvance characterizations -/

theorem getAndAdvance_exhaust (m : IndexMap) (key : Str) (N : Nat) :
    GetAndAdvance .exhaust m key N =
      if N ≤ mapGet m key then some (mapGet m key, true, m)
      else some (mapGet m key, false, assocSet m key (mapGet m key + 1)) := by
  unfold GetAndAdvance
  by_cases h : N ≤ mapGet m key <;> simp [h]

theorem getAndAdvance_rotation_pos (m : IndexMap) (key : Str) (N : Nat) (hN : 0 < N) :
    GetAndAdvance .rotation m key N =
      some (mapGet m key % N, false, assocSet m key ((mapGet m key + 1) % N)) := by
  unfold GetAndAdvance
  by_cases h : N ≤ mapGet m key
  · simp [h, Nat.pos_iff_ne_zero.mp hN]
  · simp [h, Nat.pos_iff_ne_zero.mp hN, Nat.mod_eq_of_lt (lt_of_not_le h)]

theorem getAndAdvance_rotation_zero (m : IndexMap) (key : Str) :
    GetAndAdvance .rotation m key 0 = none := by
  unfold GetAndAdvance
  simp

/-! ## Iterated takes on the cursor store -/

/-- Cursor map after `k` successive `GetAndAdvance` calls on the same key and
length (the map is left unchanged by a call that panics). -/
def takeStateAfter (mode : CacheMode) (m : IndexMap) (key : Str) (N : Nat) : Nat → IndexMap
  | 0 => m
  | k + 1 =>
      let m' := takeStateAfter mode m key N k
      match GetAndAdvance mode m' key N with
      | some r => r.2.2
      | none => m'

/-- Result (index, exhausted flag) of take number `k` (zero-based). -/
def takeResultAt (mode : CacheMode) (m : IndexMap) (key : Str) (N : Nat) (k : Nat) :
    Option (Nat × Bool) :=
  (GetAndAdvance mode (takeStateAfter mode m key N k) key N).map (fun r => (r.1, r.2.1))

/-! ## Rotation-mode iteration lemmas -/

theorem takeStateAfter_rotation_step (m : IndexMap) (key : Str) (N : Nat) (hN : 0 < N)
    (k : Nat) :
    mapGet (takeStateAfter .rotation m key N (k + 1)) key =
      (mapGet (takeStateAfter .rotation m key N k) key + 1) % N := by
  show mapGet
      (match GetAndAdvance .rotation (takeStateAfter .rotation m key N k) key N with
        | some r => r.2.2
        | none => takeStateAfter .rotation m key N k) key = _
  rw [getAndAdvance_rotation_pos _ _ _ hN]
  exact mapGet_set_self _ _ _

theorem takeStateAfter_rotation_fresh (m : IndexMap) (key : Str) (N : Nat) (hN : 0 < N)
    (h0 : mapGet m key = 0) :
    ∀ k, mapGet (takeStateAfter .rotation m key N k) key = k % N := by
  intro k
  induction k with
  | zero => simpa using h0
  | succ k ih =>
      rw [takeStateAfter_rotation_step m key N hN k, ih, Nat.mod_add_mod]

/-- C2: under rotation policy, for every stream length `N > 0` and every
(scope-key, subscriber) pair, a take returns the stored index modulo `N` with
`exhausted = false` and stores `(stored + 1) % N`; starting from a fresh
cursor the returned indices are the periodic sequence `0, 1, …, N−1, 0, 1, …`
and the exhausted flag is false on every call. -/
theorem rotation_take (m : IndexMap) (key : Str) (N : Nat) (hN : 0 < N) :
    (GetAndAdvance .rotation m key N =
      some (mapGet m key % N, false, assocSet m key ((mapGet m key + 1) % N))) ∧
    (∀ k, mapGet (takeStateAfter .rotation m key N (k + 1)) key =
      (mapGet (takeStateAfter .rotation m key N k) key + 1) % N) ∧
    (mapGet m key = 0 → ∀ k, takeResultAt .rotation m key N k = some (k % N, false)) := by
  refine ⟨getAndAdvance_rotation_pos m key N hN,
    fun k => takeStateAfter_rotation_step m key N hN k, fun h0 k => ?_⟩
  unfold takeResultAt
  rw [getAndAdvance_rotation_pos _ _ _ hN, takeStateAfter_rotation_fresh m key N hN h0 k]
  simp [Nat.mod_eq_of_lt (Nat.mod_lt _ hN)]

/-- Witness for `rotation_take` at a length-3 stream: the fifth take of a
fresh subscriber returns index `4 % 3 = 1` and is not exhausted. -/
theorem rotation_take_witness :
    (0 : Nat) < 3 ∧ takeResultAt .rotation [] (str "k1") 3 4 = some (4 % 3, false) :=
  ⟨by decide, (rotation_take [] (str "k1") 3 (by decide)).2.2 rfl 4⟩

/-- C3: the code, evaluated at the failing input.  A stream that exists with
length 0 makes the handler 404 under exhaust policy, but under rotation policy
`GetAndAdvance` evaluates `idx % 0` — a Go integer division by zero — and the
handler panics instead of returning 404. -/
theorem emptyStream_rotation_panics :
    GetAndAdvance .rotation [] (str "SPX/classic/gex_full/K") 0 = none ∧
    GetClassicGexChain (β := Str) [(DataKey (str "SPX") (str "classic") (str "gex_full"), [])]
      .rotation some [] (str "SPX") (str "full") (str "K") = (.panicked, []) ∧
    GetClassicGexChain (β := Str) [(DataKey (str "SPX") (str "classic") (str "gex_full"), [])]
      .exhaust some [] (str "SPX") (str "full") (str "K")
      = (.notFound (str "No more data available"), []) := by
  refine ⟨by decide, by decide, by decide⟩

/-! ## Exhaust-mode request iteration (claim C1) -/

theorem chain_step_exhaust {β : Type} (ld : Loader) (parse : Str → Option β)
    (t agg key : Str) (data : List Str)
    (hfind : assocFind? ld (DataKey t (str "classic") (str "gex_" ++ agg)) = some data)
    (hparse : ∀ r ∈ data, (parse r).isSome) (cache : IndexMap) :
    (∀ h : mapGet cache (CacheKey t (str "classic") (str "gex_" ++ agg) key) < data.length,
      ∃ b, parse (data.get ⟨mapGet cache (CacheKey t (str "classic") (str "gex_" ++ agg) key), h⟩)
          = some b ∧
        GetClassicGexChain ld .exhaust parse cache t agg key =
          (.ok (mapGet cache (CacheKey t (str "classic") (str "gex_" ++ agg) key)) b,
            assocSet cache (CacheKey t (str "classic") (str "gex_" ++ agg) key)
              (mapGet cache (CacheKey t (str "classic") (str "gex_" ++ agg) key) + 1))) ∧
    (data.length ≤ mapGet cache (CacheKey t (str "classic") (str "gex_" ++ agg) key) →
      GetClassicGexChain ld .exhaust parse cache t agg key =
        (.notFound (str "No more data available"), cache)) := by
  have hex : ExistsKey ld t (str "classic") (str "gex_" ++ agg) = true := by
    simp [ExistsKey, hfind]
  constructor
  · intro h
    obtain ⟨b, hb⟩ := Option.isSome_iff_exists.mp (hparse _ (data.get_mem _ _))
    refine ⟨b, hb, ?_⟩
    unfold GetClassicGexChain
    rw [if_neg (by simp [hex])]
    simp only [GetLength, hfind]
    rw [getAndAdvance_exhaust, if_neg (not_le.mpr h)]
    simp only [GetAtIndex, GetRawAtIndex, hfind]
    rw [if_neg (Int.not_lt.mpr (Int.natCast_nonneg _))]
    rw [Int.toNat_natCast, List.get?_eq_get h]
    simp only [List.get_eq_getElem] at hb
    simp [hb]
  · intro h
    unfold GetClassicGexChain
    rw [if_neg (by simp [hex])]
    simp only [GetLength, hfind]
    rw [getAndAdvance_exhaust, if_pos h]
    simp

theorem chainCacheAfter_succ {β : Type} (ld : Loader) (mode : CacheMode)
    (parse : Str → Option β) (t agg key : Str) (cache : IndexMap) (n : Nat) :
    chainCacheAfter ld mode parse t agg key cache (n + 1) =
      (GetClassicGexChain ld mode parse (chainCacheAfter ld mode parse t agg key cache n)
        t agg key).2 := rfl

theorem chain_cursor_exhaust {β : Type} (ld : Loader) (parse : Str → Option β)
    (t agg key : Str) (data : List Str) (cache₀ : IndexMap)
    (hfind : assocFind? ld (DataKey t (str "classic") (str "gex_" ++ agg)) = some data)
    (hparse : ∀ r ∈ data, (parse r).isSome)
    (hfresh : mapGet cache₀ (CacheKey t (str "classic") (str "gex_" ++ agg) key) = 0) :
    ∀ n, mapGet (chainCacheAfter ld .exhaust parse t agg key cache₀ n)
      (CacheKey t (str "classic") (str "gex_" ++ agg) key) = min n data.length := by
  intro n
  induction n with
  | zero => simpa using hfresh
  | succ n ih =>
      rw [chainCacheAfter_succ]
      rcases lt_or_ge n data.length with h | h
      · have hlt : mapGet (chainCacheAfter ld .exhaust parse t agg key cache₀ n)
            (CacheKey t (str "classic") (str "gex_" ++ agg) key) < data.length := by
          rw [ih]; exact lt_of_le_of_lt (min_le_left _ _) (by omega)
        obtain ⟨b, _, heq⟩ :=
          (chain_step_exhaust ld parse t agg key data hfind hparse _).1 hlt
        rw [heq]
        simp only [mapGet_set_self, ih]
        omega
      · have hge : data.length ≤ mapGet (chainCacheAfter ld .exhaust parse t agg key cache₀ n)
            (CacheKey t (str "classic") (str "gex_" ++ agg) key) := by
          rw [ih]; omega
        rw [(chain_step_exhaust ld parse t agg key data hfind hparse _).2 hge]
        rw [ih]; omega

theorem takeStateAfter_exhaust_fresh (m : IndexMap) (key : Str) (N : Nat)
    (h0 : mapGet m key = 0) :
    ∀ k, mapGet (takeStateAfter .exhaust m key N k) key = min k N := by
  intro k
  induction k with
  | zero => simpa using h0
  | succ k ih =>
      show mapGet
          (match GetAndAdvance .exhaust (takeStateAfter .exhaust m key N k) key N with
            | some r => r.2.2
            | none => takeStateAfter .exhaust m key N k) key = _
      rw [getAndAdvance_exhaust]
      by_cases h : N ≤ mapGet (takeStateAfter .exhaust m key N k) key
      · rw [if_pos h]
        rw [ih] at h ⊢
        omega
      · rw [if_neg h]
        simp only [mapGet_set_self]
        rw [ih] at h ⊢
        omega

theorem takeResultAt_exhaust_fresh (m : IndexMap) (key : Str) (N : Nat)
    (h0 : mapGet m key = 0) (k : Nat) :
    takeResultAt .exhaust m key N k =
      if k < N then some (k, false) else some (N, true) := by
  unfold takeResultAt
  rw [getAndAdvance_exhaust, takeStateAfter_exhaust_fresh m key N h0 k]
  rcases lt_or_ge k N with h | h
  · have h1 : min k N = k := by omega
    rw [h1, if_neg (not_le.mpr h), if_pos h]
    rfl
  · have h1 : min k N = N := by omega
    rw [h1, if_pos le_rfl, if_neg (not_lt.mpr h)]
    rfl

/-- C1 (amended: the 404 body is `No more data available`, with a capital N,
so the spec's lowercase literal is not contained in it).  Under exhaust policy,
for a stream of length `N` and a fresh subscriber key: request `k` (zero-based)
returns the record at index `k` while `k < N`; every later request returns the
404 message `No more data available`; the stored cursor after `k` requests is
`min k N`; and take number `k` returns `(k, false)` for `k < N` and `(N, true)`
afterwards. -/
theorem exhaust_chain_replay {β : Type} (ld : Loader) (parse : Str → Option β)
    (t agg key : Str) (data : List Str) (cache₀ : IndexMap)
    (hfind : assocFind? ld (DataKey t (str "classic") (str "gex_" ++ agg)) = some data)
    (hparse : ∀ r ∈ data, (parse r).isSome)
    (hfresh : mapGet cache₀ (CacheKey t (str "classic") (str "gex_" ++ agg) key) = 0) :
    ∀ k,
      mapGet (chainCacheAfter ld .exhaust parse t agg key cache₀ k)
        (CacheKey t (str "classic") (str "gex_" ++ agg) key) = min k data.length ∧
      (∀ hk : k < data.length, ∃ b,
        parse (data.get ⟨k, hk⟩) = some b ∧
        chainResultAt ld .exhaust parse t agg key cache₀ k = .ok k b) ∧
      (data.length ≤ k →
        chainResultAt ld .exhaust parse t agg key cache₀ k =
          .notFound (str "No more data available")) ∧
      takeResultAt .exhaust cache₀ (CacheKey t (str "classic") (str "gex_" ++ agg) key)
          data.length k =
        (if k < data.length then some (k, false) else some (data.length, true)) := by
  intro k
  have hcur := chain_cursor_exhaust ld parse t agg key data cache₀ hfind hparse hfresh k
  refine ⟨hcur, ?_, ?_, takeResultAt_exhaust_fresh _ _ _ hfresh k⟩
  · intro hk
    have hlt : mapGet (chainCacheAfter ld .exhaust parse t agg key cache₀ k)
        (CacheKey t (str "classic") (str "gex_" ++ agg) key) < data.length := by
      rw [hcur]; omega
    obtain ⟨b, hb, heq⟩ :=
      (chain_step_exhaust ld parse t agg key data hfind hparse _).1 hlt
    have hmin : mapGet (chainCacheAfter ld .exhaust parse t agg key cache₀ k)
        (CacheKey t (str "classic") (str "gex_" ++ agg) key) = k := by
      rw [hcur]; omega
    simp only [List.get_eq_getElem, hmin] at hb heq
    exact ⟨b, by simpa using hb, by rw [chainResultAt, heq]⟩
  · intro hk
    have hge : data.length ≤ mapGet (chainCacheAfter ld .exhaust parse t agg key cache₀ k)
        (CacheKey t (str "classic") (str "gex_" ++ agg) key) := by
      rw [hcur]; omega
    have heq := (chain_step_exhaust ld parse t agg key data hfind hparse _).2 hge
    rw [chainResultAt, heq]

/-- Witness for `exhaust_chain_replay` on the literal three-record scenario:
the fourth request of a fresh key returns the 404 message. -/
theorem exhaust_chain_replay_witness :
    chainResultAt (β := Str)
        [(DataKey (str "SPX") (str "classic") (str "gex_full"), [str "r0", str "r1", str "r2"])]
        .exhaust some (str "SPX") (str "full") (str "K") [] 3
      = .notFound (str "No more data available") :=
  (exhaust_chain_replay
      [(DataKey (str "SPX") (str "classic") (str "gex_full"), [str "r0", str "r1", str "r2"])]
      some (str "SPX") (str "full") (str "K") [str "r0", str "r1", str "r2"] []
      (by decide) (by decide) (by decide) 3).2.2.1 (by decide)

/-- C1 counterexample: in the literal three-record scenario the fourth request
does 404, but its body is `No more data available`, which does not contain the
claimed substring `no more data available` (the casing differs). -/
theorem exhaust_chain_message_case :
    chainResultAt (β := Str)
        [(DataKey (str "SPX") (str "classic") (str "gex_full"), [str "r0", str "r1", str "r2"])]
        .exhaust some (str "SPX") (str "full") (str "K") [] 3
      = .notFound (str "No more data available") ∧
    ¬ (str "no more data available" <:+: str "No more data available") :=
  ⟨by decide, by decide⟩

/-! ## Cursor reset (claim C4) -/

/-- The trailing component of a composite key: everything after the last
slash.  (Used to state what the spec calls the subscriber component.) -/
def lastComponent (s : Str) : Str :=
  (s.reverse.takeWhile (fun ch => ! decide (ch = '/'))).reverse

theorem assocFind?_filter_none {β : Type} (m : List (Str × β)) (q : Str × β → Bool)
    (k : Str) (hq : ∀ p : Str × β, p.1 = k → q p = false) :
    assocFind? (m.filter q) k = none := by
  induction m with
  | nil => rfl
  | cons p rest ih =>
      cases hqp : q p with
      | true =>
          have hpk : ¬ p.1 = k := fun hh => by rw [hq p hh] at hqp; exact Bool.noConfusion hqp
          rw [List.filter_cons_of_pos hqp, assocFind?_cons, if_neg hpk]
          exact ih
      | false =>
          rw [List.filter_cons_of_neg (by simp [hqp])]
          exact ih

/-- C4 (amended): `reset([])` clears every entry and returns the old count;
`reset(key)` for a non-empty key deletes exactly the entries whose composite
key is strictly longer than `"/" ++ key` and ends with `"/" ++ key`, returns
the number deleted, and afterwards `GetIndex` of every deleted key is 0.  For
keys built by `CacheKey`, this suffix test agrees with "the subscriber
component equals `key`" exactly when neither the reset key nor the entry's
subscriber component contains a slash. -/
theorem resetCache_spec :
    (∀ m : IndexMap, ResetCache m [] = (m.length, []) ∧
      ∀ k, GetIndex (ResetCache m []).2 k = 0) ∧
    (∀ (m : IndexMap) (key : Str), key ≠ [] →
      (ResetCache m key).2 = m.filter (fun p =>
        ! (decide ((str "/" ++ key).length < p.1.length) && decide ((str "/" ++ key) <:+ p.1))) ∧
      (ResetCache m key).1 = (m.filter (fun p =>
        decide ((str "/" ++ key).length < p.1.length) && decide ((str "/" ++ key) <:+ p.1))).length ∧
      ∀ k, (str "/" ++ key).length < k.length → (str "/" ++ key) <:+ k →
        GetIndex (ResetCache m key).2 k = 0) ∧
    (∀ (key t p c a : Str), '/' ∉ key → '/' ∉ a →
      (((str "/" ++ key).length < (CacheKey t p c a).length ∧
          (str "/" ++ key) <:+ CacheKey t p c a) ↔ a = key)) := by
  refine ⟨fun m => ⟨rfl, fun k => rfl⟩, fun m key hkey => ?_, fun key t p c a hk ha => ?_⟩
  · refine ⟨by rw [ResetCache, if_neg hkey], by rw [ResetCache, if_neg hkey], fun k h1 h2 => ?_⟩
    rw [ResetCache, if_neg hkey]
    show GetIndex (m.filter _) k = 0
    unfold GetIndex mapGet
    rw [assocFind?_filter_none]
    · rfl
    · intro q hq
      rw [hq]
      have h1' : List.length (str "/") + key.length < k.length := by simpa using h1
      simp [h1', h2]
  · have hsplit : CacheKey t p c a = (t ++ str "/" ++ p ++ str "/" ++ c) ++ '/' :: a := by
      show t ++ str "/" ++ p ++ str "/" ++ c ++ str "/" ++ a = _
      simp [str]
    constructor
    · rintro ⟨hlen, hsuf⟩
      have hsa : '/' :: a <:+ CacheKey t p c a := by
        rw [hsplit]; exact (List.suffix_append _ _)
      have hsk : '/' :: key <:+ CacheKey t p c a := by
        simpa [str] using hsuf
      rcases List.suffix_or_suffix_of_suffix hsk hsa with h | h
      · rcases List.suffix_cons_iff.mp h with h' | h'
        · exact (List.cons.inj h').2.symm
        · exact absurd (h'.subset (List.mem_cons_self _ _)) ha
      · rcases List.suffix_cons_iff.mp h with h' | h'
        · exact (List.cons.inj h').2
        · exact absurd (h'.subset (List.mem_cons_self _ _)) hk
    · rintro rfl
      constructor
      · rw [hsplit]
        simp [str]
        omega
      · rw [hsplit]
        show ('/' :: a) <:+ _
        exact List.suffix_append _ _

/-- Witness for `resetCache_spec`: for slash-free components, the code's
suffix test on a concrete cache key agrees with subscriber equality. -/
theorem resetCache_spec_witness :
    ((str "/" ++ str "a").length < (CacheKey (str "t") (str "p") (str "c") (str "a")).length ∧
      (str "/" ++ str "a") <:+ CacheKey (str "t") (str "p") (str "c") (str "a")) ↔
      str "a" = str "a" :=
  resetCache_spec.2.2 (str "a") (str "t") (str "p") (str "c") (str "a") (by decide) (by decide)

/-- C4 counterexample: with the single entry `t/p/c/a` (subscriber component
`a`), `reset("c/a")` deletes the entry and reports one deletion even though
the entry's subscriber (trailing) component is `a`, not `c/a`. -/
theorem resetCache_slash_key_case :
    (ResetCache [(CacheKey (str "t") (str "p") (str "c") (str "a"), 1)] (str "c/a")).1 = 1 ∧
    (ResetCache [(CacheKey (str "t") (str "p") (str "c") (str "a"), 1)] (str "c/a")).2 = [] ∧
    lastComponent (CacheKey (str "t") (str "p") (str "c") (str "a")) = str "a" ∧
    str "a" ≠ str "c/a" := by
  refine ⟨by decide, by decide, by decide, by decide⟩

/-! ## Memory loader registration (claim C10) -/

theorem assocSet_length_ge {β : Type} (m : List (Str × β)) (k : Str) (v : β) :
    m.length ≤ (assocSet m k v).length := by
  unfold assocSet
  split
  · simp
  · simp

theorem buildDataAux_length_ge (files : List (Str × List Str)) :
    ∀ m : Loader, m.length ≤ (files.foldl (fun m kf => assocSet m kf.1 (loadJSONL kf.2)) m).length := by
  induction files with
  | nil => intro m; simp
  | cons f rest ih =>
      intro m
      exact le_trans (assocSet_length_ge m f.1 (loadJSONL f.2)) (ih _)

theorem buildDataAux_find_of_not_mem (files : List (Str × List Str)) :
    ∀ (m : Loader) (k : Str), k ∉ files.map (fun f => f.1) →
      assocFind? (files.foldl (fun m kf => assocSet m kf.1 (loadJSONL kf.2)) m) k
        = assocFind? m k := by
  induction files with
  | nil => intro m k _; rfl
  | cons f rest ih =>
      intro m k hk
      rw [List.map_cons] at hk
      have hk1 : k ≠ f.1 := fun hh => hk (hh ▸ List.mem_cons_self _ _)
      have hk2 : k ∉ rest.map (fun f => f.1) := fun hh => hk (List.mem_cons_of_mem _ hh)
      rw [List.foldl_cons, ih _ k hk2, assocFind?_set_ne _ _ _ _ hk1]

theorem buildData_find_aux (files : List (Str × List Str)) (k : Str) (lines : List Str) :
    ∀ m : Loader, (files.map (fun f => f.1)).Nodup → (k, lines) ∈ files →
      assocFind? (files.foldl (fun m kf => assocSet m kf.1 (loadJSONL kf.2)) m) k
        = some (loadJSONL lines) := by
  induction files with
  | nil => intro m _ hmem; cases hmem
  | cons f rest ih =>
      intro m hnd hmem
      rcases List.mem_cons.mp hmem with h | h
      · have hk : k ∉ rest.map (fun f => f.1) := by
          rw [← h] at hnd
          exact (List.nodup_cons.mp (by simpa using hnd)).1
        rw [List.foldl_cons, buildDataAux_find_of_not_mem rest _ k hk, ← h]
        exact assocFind?_set_self m k (loadJSONL lines)
      · rw [List.foldl_cons]
        exact ih _ (List.nodup_cons.mp (by simpa using hnd)).2 h

theorem buildData_find (files : List (Str × List Str)) (k : Str) (lines : List Str)
    (hnd : (files.map (fun f => f.1)).Nodup) (hmem : (k, lines) ∈ files) :
    assocFind? (buildData files) k = some (loadJSONL lines) :=
  buildData_find_aux files k lines [] hnd hmem

theorem assocFind?_mem_keys {β : Type} (m : List (Str × β)) (k : Str) (v : β)
    (h : assocFind? m k = some v) : k ∈ m.map (fun p => p.1) := by
  unfold assocFind? at h
  cases hf : m.find? (fun p => decide (p.1 = k)) with
  | none => rw [hf] at h; cases h
  | some q =>
      have hq : q.1 = k := by simpa using List.find?_some hf
      have hqm : q ∈ m := List.mem_of_find?_eq_some hf
      exact hq ▸ List.mem_map_of_mem (fun p => p.1) hqm

/-- C10: a record file under the loaded date whose lines are all empty is
still registered by the memory loader: the key exists, its length is 0, every
indexed read is out of range, the key is listed, and a file set made of such
files still constructs successfully. -/
theorem emptyFile_registered (files : List (Str × List Str)) (t p c : Str)
    (lines : List Str)
    (hnd : (files.map (fun f => f.1)).Nodup)
    (hmem : (DataKey t p c, lines) ∈ files)
    (hempty : ∀ l ∈ lines, l = []) :
    NewMemoryLoader files = some (buildData files) ∧
    ExistsKey (buildData files) t p c = true ∧
    GetLength (buildData files) t p c = .ok 0 ∧
    (∀ i : Int, GetRawAtIndex (buildData files) t p c i = .error .indexOutOfBounds) ∧
    DataKey t p c ∈ GetLoadedKeys (buildData files) := by
  have hload : loadJSONL lines = [] := by
    apply List.filter_eq_nil_iff.mpr
    intro l hl
    rw [hempty l hl]
    decide
  have hfind : assocFind? (buildData files) (DataKey t p c) = some [] := by
    rw [buildData_find files _ lines hnd hmem, hload]
  have hne : ¬ (buildData files).isEmpty := by
    rcases files with _ | ⟨f, rest⟩
    · cases hmem
    · have h1 : 1 ≤ (buildData (f :: rest)).length := by
        unfold buildData
        rw [List.foldl_cons]
        calc 1 = (assocSet ([] : Loader) f.1 (loadJSONL f.2)).length := by
                  simp [assocSet, assocFind?]
          _ ≤ _ := buildDataAux_length_ge rest _
      simp only [List.isEmpty_iff]
      intro hh
      rw [hh] at h1
      simp at h1
  refine ⟨by simp [NewMemoryLoader, hne], by simp [ExistsKey, hfind], ?_, ?_, ?_⟩
  · simp [GetLength, hfind]
  · intro i
    by_cases hi : i < 0 <;> simp [GetRawAtIndex, hfind, hi]
  · exact assocFind?_mem_keys _ _ _ hfind

/-- Witness for `emptyFile_registered`: a date root holding one file of two
empty lines constructs, and the stream reports length 0. -/
theorem emptyFile_registered_witness :
    GetLength (buildData [(DataKey (str "SPX") (str "orderflow") (str "orderflow"), [[], []])])
      (str "SPX") (str "orderflow") (str "orderflow") = .ok 0 :=
  (emptyFile_registered
    [(DataKey (str "SPX") (str "orderflow") (str "orderflow"), [[], []])]
    (str "SPX") (str "orderflow") (str "orderflow") [[], []]
    (by decide) (by decide) (by decide)).2.2.1

/-! ## Group-name validation (claim C7): internal/ws/client.go -/

/-- Model of `IsValidClassicGroup` from client.go: hardcoded prefix `blue_`, a
`_classic_` containment check, and one of three categorized suffixes. -/
def IsValidClassicGroup (group : Str) : Bool :=
  if ¬ (str "blue_" <+: group) then false
  else if ¬ (str "_classic_" <:+: group) then false
  else decide (str "_classic_gex_full" <:+ group) ||
       decide (str "_classic_gex_zero" <:+ group) ||
       decide (str "_classic_gex_one" <:+ group)

/-- C7 counterexample: `blue_classic_gex_full` is accepted by the validator,
yet it is not of the form `blue_{ticker}_classic_{category}` for any ticker:
the accepted prefix and suffix overlap on one underscore. -/
theorem classicGroup_overlap_case :
    IsValidClassicGroup (str "blue_classic_gex_full") = true ∧
    ¬ ∃ (t c : Str), (c = str "gex_full" ∨ c = str "gex_zero" ∨ c = str "gex_one") ∧
      str "blue_classic_gex_full" = str "blue_" ++ t ++ str "_classic_" ++ c := by
  constructor
  · decide
  · rintro ⟨t, c, hc, h⟩
    have hlen := congrArg List.length h
    simp only [List.length_append] at hlen
    have e0 : (str "blue_classic_gex_full").length = 21 := by decide
    have e1 : (str "blue_").length = 5 := by decide
    have e2 : (str "_classic_").length = 9 := by decide
    rcases hc with rfl | rfl | rfl
    · have e3 : (str "gex_full").length = 8 := by decide
      omega
    · have e3 : (str "gex_zero").length = 8 := by decide
      omega
    · have e3 : (str "gex_one").length = 7 := by decide
      have ht : t = [] := List.length_eq_zero.mp (by omega)
      subst ht
      exact absurd h (by decide)

/-- C7 (amended): the validator accepts exactly the strings that start with
the hardcoded literal `blue_` (not the configured group prefix) and end with
one of `_classic_gex_full`, `_classic_gex_zero`, `_classic_gex_one`.  Every
well-formed `blue_{ticker}_classic_{category}` name is accepted, but strings
whose `blue_` prefix overlaps the suffix (no ticker component) are accepted
too. -/
theorem classicGroup_validator_spec :
    (∀ g : Str, IsValidClassicGroup g = true ↔
      (str "blue_" <+: g ∧ (str "_classic_gex_full" <:+ g ∨
        str "_classic_gex_zero" <:+ g ∨ str "_classic_gex_one" <:+ g))) ∧
    (∀ (t c : Str), (c = str "gex_full" ∨ c = str "gex_zero" ∨ c = str "gex_one") →
      IsValidClassicGroup (str "blue_" ++ t ++ str "_classic_" ++ c) = true) := by
  have hcont : ∀ g : Str, (str "_classic_gex_full" <:+ g ∨
      str "_classic_gex_zero" <:+ g ∨ str "_classic_gex_one" <:+ g) →
      str "_classic_" <:+: g := by
    rintro g (h | h | h)
    · exact ((show str "_classic_" <+: str "_classic_gex_full" by decide).isInfix).trans h.isInfix
    · exact ((show str "_classic_" <+: str "_classic_gex_zero" by decide).isInfix).trans h.isInfix
    · exact ((show str "_classic_" <+: str "_classic_gex_one" by decide).isInfix).trans h.isInfix
  have hiff : ∀ g : Str, IsValidClassicGroup g = true ↔
      (str "blue_" <+: g ∧ (str "_classic_gex_full" <:+ g ∨
        str "_classic_gex_zero" <:+ g ∨ str "_classic_gex_one" <:+ g)) := by
    intro g
    constructor
    · intro hv
      unfold IsValidClassicGroup at hv
      by_cases h1 : str "blue_" <+: g
      · by_cases h2 : str "_classic_" <:+: g
        · rw [if_neg (not_not_intro h1), if_neg (not_not_intro h2)] at hv
          refine ⟨h1, ?_⟩
          simpa [or_assoc] using hv
        · rw [if_neg (not_not_intro h1), if_pos h2] at hv
          exact Bool.noConfusion hv
      · rw [if_pos h1] at hv
        exact Bool.noConfusion hv
    · rintro ⟨h1, hs⟩
      unfold IsValidClassicGroup
      rw [if_neg (not_not_intro h1), if_neg (not_not_intro (hcont g hs))]
      simpa [or_assoc] using hs
  refine ⟨hiff, fun t c hc => (hiff _).mpr ⟨?_, ?_⟩⟩
  · rw [List.append_assoc, List.append_assoc]
    exact List.prefix_append _ _
  · rcases hc with rfl | rfl | rfl
    · refine Or.inl ?_
      rw [show str "_classic_gex_full" = str "_classic_" ++ str "gex_full" by decide,
        List.append_assoc]
      exact List.suffix_append _ _
    · refine Or.inr (Or.inl ?_)
      rw [show str "_classic_gex_zero" = str "_classic_" ++ str "gex_zero" by decide,
        List.append_assoc]
      exact List.suffix_append _ _
    · refine Or.inr (Or.inr ?_)
      rw [show str "_classic_gex_one" = str "_classic_" ++ str "gex_one" by decide,
        List.append_assoc]
      exact List.suffix_append _ _

/-- Witness for `classicGroup_validator_spec`: a ticker with an internal
underscore forms a valid classic group name. -/
theorem classicGroup_validator_spec_witness :
    IsValidClassicGroup (str "blue_" ++ str "ES_SPX" ++ str "_classic_" ++ str "gex_zero") = true :=
  classicGroup_validator_spec.2 (str "ES_SPX") (str "gex_zero") (Or.inr (Or.inl rfl))

/-! ## Codec (claim C5): EncodeGex in internal/ws/streamer.go

Go `float64` values are modelled as exact rationals; the Go conversions
`int32(x)` / `uint32(x)` on a float discard the fractional part (truncation
toward zero, per the Go specification) and are modelled by `truncQ`.  The
protobuf serialization and Zstandard compression are injective carriers and
are modelled at the typed-message level. -/

/-- Go float-to-integer conversion on in-range values: the fractional part is
discarded (truncated toward zero). -/
def truncQ (q : ℚ) : Int := if 0 ≤ q then ⌊q⌋ else -⌊-q⌋

/-- Go `int32(n)` on an integer: two's-complement wraparound into
`[-2^31, 2^31)`. -/
def toInt32 (n : Int) : Int := Int.bmod n (2 ^ 32)

/-- A well-formed strikes entry `[strike_price, v1, v2, [priors...]]` as
`EncodeGex` consumes it after JSON decoding (entries with fewer than three
positions are skipped by the source and carry no claim). -/
structure StrikeEntry where
  price : ℚ
  v1 : ℚ
  v2 : ℚ
  priors : Option (List ℚ)
deriving DecidableEq

/-- Model of `GexData` (models.go) after JSON decoding, with the two raw arrays in
their decoded form. -/
structure GexDataQ where
  timestamp : Int
  ticker : Str
  minDTE : Int
  secMinDTE : Int
  spot : ℚ
  zeroGamma : ℚ
  majorPosVol : ℚ
  majorPosOI : ℚ
  majorNegVol : ℚ
  majorNegOI : ℚ
  strikes : List StrikeEntry
  sumGexVol : ℚ
  sumGexOI : ℚ
  deltaRiskReversal : ℚ
  maxPriors : List (List ℚ)

/-- The `gexpb.Strike` message. -/
structure StrikePb where
  strikePrice : Int
  value1 : Int
  value2 : Int
  priors : Option (List Int)
deriving DecidableEq

/-- One `gexpb.MaxPriorsTuple` message. -/
structure MaxPriorsTuplePb where
  firstValue : Int
  secondValue : Int
deriving DecidableEq

/-- The `gexpb.Gex` message. -/
structure GexPb where
  timestamp : Int
  ticker : Str
  minDte : Int
  secMinDte : Int
  spot : Int
  zeroGamma : Int
  majorPosVol : Int
  majorPosOi : Int
  majorNegVol : Int
  majorNegOi : Int
  strikes : List StrikePb
  sumGexVol : Int
  sumGexOi : Int
  deltaRiskReversal : Int
  maxPriors : Option (List MaxPriorsTuplePb)
deriving DecidableEq

/-- The per-strike translation inside `EncodeGex` (streamer.go): strike price
×100, values ×100, priors ×100, priors kept only when present and non-empty. -/
def encodeStrike (s : StrikeEntry) : StrikePb :=
  { strikePrice := truncQ (s.price * 100)
    value1 := truncQ (s.v1 * 100)
    value2 := truncQ (s.v2 * 100)
    priors :=
      match s.priors with
      | some ps => if 0 < ps.length then some (ps.map (fun x => truncQ (x * 100))) else none
      | none => none }

/-- The max-priors translation inside `EncodeGex`: tuples of length ≥ 2 carry
first ×100 and second ×1000; an empty tuple list yields no message. -/
def encodeMaxPriors (mps : List (List ℚ)) : Option (List MaxPriorsTuplePb) :=
  let tuples := (mps.filter (fun mp => decide (2 ≤ mp.length))).map
    (fun mp => ({ firstValue := truncQ (mp.getD 0 0 * 100),
                  secondValue := truncQ (mp.getD 1 0 * 1000) } : MaxPriorsTuplePb))
  if 0 < tuples.length then some tuples else none

/-- Model of `Encoder.EncodeGex` (streamer.go), at the typed-message level. -/
def EncodeGex (g : GexDataQ) : GexPb :=
  { timestamp := g.timestamp
    ticker := g.ticker
    minDte := toInt32 g.minDTE
    secMinDte := toInt32 g.secMinDTE
    spot := truncQ (g.spot * 100)
    zeroGamma := truncQ (g.zeroGamma * 100)
    majorPosVol := truncQ (g.majorPosVol * 100)
    majorPosOi := truncQ (g.majorPosOI * 100)
    majorNegVol := truncQ (g.majorNegVol * 100)
    majorNegOi := truncQ (g.majorNegOI * 100)
    strikes := g.strikes.map encodeStrike
    sumGexVol := truncQ (g.sumGexVol * 1000)
    sumGexOi := truncQ (g.sumGexOI * 1000)
    deltaRiskReversal := truncQ (g.deltaRiskReversal * 1000)
    maxPriors := encodeMaxPriors g.maxPriors }

/-- Truncation toward zero as the spec words it: "Truncation is toward zero
(cast), not rounded" — the floor for nonnegative values and the ceiling for
negative values. -/
def specTruncTowardZero (q : ℚ) : Int := if q < 0 then ⌈q⌉ else ⌊q⌋

/-- Scaling by a fixed factor followed by the spec's truncation. -/
def specScale (factor : ℚ) (q : ℚ) : Int := specTruncTowardZero (q * factor)

/-- The chain-profile rows of the spec's scaling table (§4.2), written
independently of the source: spot, zero_gamma and the four majors ×100;
sum_gex_vol, sum_gex_oi, delta_risk_reversal ×1000; strike entries strike
×100, v1, v2 and priors ×100; max_priors pairs first ×100, second ×1000. -/
def specEncodeGex (g : GexDataQ) : GexPb :=
  { timestamp := g.timestamp
    ticker := g.ticker
    minDte := toInt32 g.minDTE
    secMinDte := toInt32 g.secMinDTE
    spot := specScale 100 g.spot
    zeroGamma := specScale 100 g.zeroGamma
    majorPosVol := specScale 100 g.majorPosVol
    majorPosOi := specScale 100 g.majorPosOI
    majorNegVol := specScale 100 g.majorNegVol
    majorNegOi := specScale 100 g.majorNegOI
    strikes := g.strikes.map (fun s =>
      { strikePrice := specScale 100 s.price
        value1 := specScale 100 s.v1
        value2 := specScale 100 s.v2
        priors :=
          match s.priors with
          | some ps => if 0 < ps.length then some (ps.map (fun x => specScale 100 x)) else none
          | none => none })
    sumGexVol := specScale 1000 g.sumGexVol
    sumGexOi := specScale 1000 g.sumGexOI
    deltaRiskReversal := specScale 1000 g.deltaRiskReversal
    maxPriors :=
      let tuples := (g.maxPriors.filter (fun mp => decide (2 ≤ mp.length))).map
        (fun mp => ({ firstValue := specScale 100 (mp.getD 0 0),
                      secondValue := specScale 1000 (mp.getD 1 0) } : MaxPriorsTuplePb))
      if 0 < tuples.length then some tuples else none }

/-- C5: the encoder's conversion truncates toward zero (floor above zero,
ceiling below — never rounding), and `EncodeGex` realizes exactly the spec's
scaling table: ×100 for spot, zero_gamma and the majors, ×1000 for
sum_gex_vol, sum_gex_oi and delta_risk_reversal, ×100 for strike fields and
priors, and (×100, ×1000) for max_priors pairs. -/
theorem encodeGex_scaling :
    (∀ q : ℚ, truncQ q = specTruncTowardZero q) ∧
    (∀ g : GexDataQ, EncodeGex g = specEncodeGex g) := by
  have htr : ∀ q : ℚ, truncQ q = specTruncTowardZero q := by
    intro q
    unfold truncQ specTruncTowardZero
    rcases lt_or_ge q 0 with h | h
    · rw [if_neg (not_le.mpr h), if_pos h, Int.floor_neg, neg_neg]
    · rw [if_pos h, if_neg (not_lt.mpr h)]
  refine ⟨htr, fun g => ?_⟩
  have htr' : truncQ = specTruncTowardZero := funext htr
  unfold EncodeGex specEncodeGex encodeStrike encodeMaxPriors specScale
  rw [htr']

/-! ## Hub (claims C6, C8): internal/ws/encoder.go and client.go

Connections are identified by natural numbers.  The hub's maps are modelled
as functions: `groups` maps a group name to its bucket when the map holds the
key (`none` models absence from the Go map), `subs` is each client's own
`groups` set, and `closedCount` counts how many times `close(client.send)`
has run for the client. -/

structure HubState where
  clients : Finset Nat
  groups : Str → Option (Finset Nat)
  subs : Nat → Finset Str
  closedCount : Nat → Nat

/-- A freshly constructed hub (`NewHub`). -/
def initHub : HubState :=
  { clients := ∅, groups := fun _ => none, subs := fun _ => ∅, closedCount := fun _ => 0 }

/-- Model of `Hub.JoinGroup` (encoder.go): make the bucket if missing, add the client
to it, and add the group to the client's own set. -/
def JoinGroup (h : HubState) (c : Nat) (g : Str) : HubState :=
  { h with
    groups := Function.update h.groups g (some (insert c ((h.groups g).getD ∅)))
    subs := Function.update h.subs c (insert g (h.subs c)) }

/-- Model of `Hub.LeaveGroup` (encoder.go): remove the client from the bucket if the
bucket exists, delete the bucket when it becomes empty, and remove the group
from the client's own set. -/
def LeaveGroup (h : HubState) (c : Nat) (g : Str) : HubState :=
  { h with
    groups :=
      match h.groups g with
      | none => h.groups
      | some s =>
          Function.update h.groups g
            (if s.erase c = ∅ then none else some (s.erase c))
    subs := Function.update h.subs c ((h.subs c).erase g) }

/-- The register branch of `Hub.Run`. -/
def RegisterClient (h : HubState) (c : Nat) : HubState :=
  { h with clients := insert c h.clients }

/-- Removing a client from one bucket of the group map, deleting the bucket
when it becomes empty (the shared shape of unregister's per-group update). -/
def bucketErase (o : Option (Finset Nat)) (c : Nat) : Option (Finset Nat) :=
  match o with
  | none => none
  | some s => if s.erase c = ∅ then none else some (s.erase c)

theorem bucketErase_none (c : Nat) : bucketErase none c = none := rfl

theorem bucketErase_some (s0 : Finset Nat) (c : Nat) :
    bucketErase (some s0) c = if s0.erase c = ∅ then none else some (s0.erase c) := rfl

/-- The unregister branch of `Hub.Run`: guarded by registry membership;
removes the client from the bucket of every group in the client's own set,
deletes buckets that become empty, and closes the send queue once.  The
client's own subscription set is not cleared. -/
def UnregisterClient (h : HubState) (c : Nat) : HubState :=
  if c ∈ h.clients then
    { clients := h.clients.erase c
      groups := fun g =>
        if g ∈ h.subs c then bucketErase (h.groups g) c else h.groups g
      subs := h.subs
      closedCount := Function.update h.closedCount c (h.closedCount c + 1) }
  else h

/-- Model of `Hub.shutdown`: close every registered client's queue, clear the client
registry and the group map. -/
def ShutdownHub (h : HubState) : HubState :=
  { clients := ∅
    groups := fun _ => none
    subs := h.subs
    closedCount := fun c => if c ∈ h.clients then h.closedCount c + 1 else h.closedCount c }

/-- One hub operation. -/
inductive HubOp where
  | register (c : Nat)
  | unregister (c : Nat)
  | join (c : Nat) (g : Str)
  | leave (c : Nat) (g : Str)
  | shutdown
deriving DecidableEq

def hubStep (h : HubState) : HubOp → HubState
  | .register c => RegisterClient h c
  | .unregister c => UnregisterClient h c
  | .join c g => JoinGroup h c g
  | .leave c g => LeaveGroup h c g
  | .shutdown => ShutdownHub h

def runHub (ops : List HubOp) : HubState := ops.foldl hubStep initHub

/-- The clients registered by a trace, in order. -/
def regs (ops : List HubOp) : List Nat :=
  ops.filterMap (fun op => match op with | .register c => some c | _ => none)

/-- Traces the implementation can produce: every registered connection object
is fresh (`HandleOrderflowWS` builds a new client per upgrade), and join and
leave are issued only by connections that have been registered (the register
channel send completes before the pumps start). -/
def validFrom (seen : List Nat) : List HubOp → Bool
  | [] => true
  | .register c :: rest => !(seen.contains c) && validFrom (c :: seen) rest
  | .unregister _ :: rest => validFrom seen rest
  | .join c _ :: rest => seen.contains c && validFrom seen rest
  | .leave c _ :: rest => seen.contains c && validFrom seen rest
  | .shutdown :: rest => validFrom seen rest

/-- Group membership and the client's own set agree for client `c`. -/
def Consistent (h : HubState) (c : Nat) : Prop :=
  ∀ g : Str, (∃ s, h.groups g = some s ∧ c ∈ s) ↔ g ∈ h.subs c

/-- The hub invariant, relative to the set `R` of ever-registered clients. -/
def HubInv (R : List Nat) (h : HubState) : Prop :=
  (∀ c ∈ h.clients, Consistent h c) ∧
  (∀ g s, h.groups g = some s → s.Nonempty) ∧
  (∀ c : Nat, h.closedCount c = if c ∈ R ∧ c ∉ h.clients then 1 else 0) ∧
  (∀ c ∈ h.clients, c ∈ R) ∧
  (∀ c : Nat, c ∉ R → h.subs c = ∅ ∧ ∀ g s, h.groups g = some s → c ∉ s)

theorem hubInv_join (R : List Nat) (h : HubState) (c : Nat) (g : Str)
    (hInv : HubInv R h) (hc : c ∈ R) : HubInv R (JoinGroup h c g) := by
  obtain ⟨hA, hB, hC, hD, hE⟩ := hInv
  refine ⟨?_, ?_, hC, hD, ?_⟩
  · intro c' hc' g'
    show (∃ s, Function.update h.groups g (some (insert c ((h.groups g).getD ∅))) g' = some s
        ∧ c' ∈ s) ↔ g' ∈ Function.update h.subs c (insert g (h.subs c)) c'
    by_cases hg : g' = g
    · subst hg
      rw [Function.update_same]
      by_cases hcc : c' = c
      · subst hcc
        rw [Function.update_same]
        simp
      · rw [Function.update_noteq hcc]
        have hold := hA c' hc' g'
        cases hgs : h.groups g' with
        | none =>
            simp only [hgs, Option.getD_none]
            rw [hgs] at hold
            have hrhs : g' ∉ h.subs c' := fun hm => by
              rcases hold.mpr hm with ⟨s, hs, _⟩
              cases hs
            constructor
            · rintro ⟨s, hs, hm⟩
              cases hs
              rcases Finset.mem_insert.mp hm with h1 | h1
              · exact absurd h1 hcc
              · simp at h1
            · intro hm
              exact absurd hm hrhs
        | some s0 =>
            simp only [hgs, Option.getD_some]
            rw [hgs] at hold
            constructor
            · rintro ⟨s, hs, hm⟩
              cases hs
              rcases Finset.mem_insert.mp hm with h1 | h1
              · exact absurd h1 hcc
              · exact hold.mp ⟨s0, rfl, h1⟩
            · intro hm
              rcases hold.mpr hm with ⟨s, hs, hm'⟩
              cases hs
              exact ⟨_, rfl, Finset.mem_insert_of_mem hm'⟩
    · rw [Function.update_noteq hg]
      by_cases hcc : c' = c
      · subst hcc
        rw [Function.update_same]
        rw [Finset.mem_insert]
        have hold := hA c' hc' g'
        constructor
        · intro hx
          exact Or.inr (hold.mp hx)
        · rintro (h1 | h1)
          · exact absurd h1 hg
          · exact hold.mpr h1
      · rw [Function.update_noteq hcc]
        exact hA c' hc' g'
  · intro g' s hgs
    replace hgs : Function.update h.groups g (some (insert c ((h.groups g).getD ∅))) g'
        = some s := hgs
    by_cases hg : g' = g
    · subst hg
      rw [Function.update_same] at hgs
      cases hgs
      exact ⟨c, Finset.mem_insert_self _ _⟩
    · rw [Function.update_noteq hg] at hgs
      exact hB g' s hgs
  · intro x hx
    obtain ⟨hs, hbs⟩ := hE x hx
    have hxc : x ≠ c := fun hh => hx (hh ▸ hc)
    constructor
    · show Function.update h.subs c (insert g (h.subs c)) x = ∅
      rw [Function.update_noteq hxc]
      exact hs
    · intro g' s hgs
      replace hgs : Function.update h.groups g (some (insert c ((h.groups g).getD ∅))) g'
          = some s := hgs
      by_cases hg : g' = g
      · subst hg
        rw [Function.update_same] at hgs
        cases hgs
        intro hm
        rcases Finset.mem_insert.mp hm with h1 | h1
        · exact hxc h1
        · cases hgs2 : h.groups g' with
          | none => rw [hgs2] at h1; simp at h1
          | some s0 => rw [hgs2] at h1; exact hbs g' s0 hgs2 (by simpa using h1)
      · rw [Function.update_noteq hg] at hgs
        exact hbs g' s hgs

theorem hubInv_leave (R : List Nat) (h : HubState) (c : Nat) (g : Str)
    (hInv : HubInv R h) (hc : c ∈ R) : HubInv R (LeaveGroup h c g) := by
  obtain ⟨hA, hB, hC, hD, hE⟩ := hInv
  have hreds : (LeaveGroup h c g).subs = Function.update h.subs c ((h.subs c).erase g) := rfl
  cases hg0 : h.groups g with
  | none =>
      have hred : (LeaveGroup h c g).groups = h.groups := by
        unfold LeaveGroup
        rw [hg0]
      refine ⟨?_, ?_, hC, hD, ?_⟩
      · intro c' hc' g'
        rw [hred, hreds]
        by_cases hcc : c' = c
        · subst hcc
          rw [Function.update_same, Finset.mem_erase]
          have hold := hA c' hc' g'
          by_cases hgg : g' = g
          · subst hgg
            constructor
            · rintro ⟨s, hs, _⟩
              rw [hg0] at hs
              cases hs
            · rintro ⟨hne, _⟩
              exact absurd rfl hne
          · simp only [Ne, hgg, not_false_eq_true, true_and]
            exact hold
        · rw [Function.update_noteq hcc]
          exact hA c' hc' g'
      · intro g' s hgs
        rw [hred] at hgs
        exact hB g' s hgs
      · intro x hx
        obtain ⟨hs, hbs⟩ := hE x hx
        have hxc : x ≠ c := fun hh => hx (hh ▸ hc)
        refine ⟨?_, ?_⟩
        · rw [hreds, Function.update_noteq hxc]
          exact hs
        · intro g' s hgs
          rw [hred] at hgs
          exact hbs g' s hgs
  | some s0 =>
      have hred : (LeaveGroup h c g).groups =
          Function.update h.groups g (if s0.erase c = ∅ then none else some (s0.erase c)) := by
        unfold LeaveGroup
        rw [hg0]
      refine ⟨?_, ?_, hC, hD, ?_⟩
      · intro c' hc' g'
        rw [hred, hreds]
        by_cases hgg : g' = g
        · subst hgg
          rw [Function.update_same]
          have hold := hA c' hc' g'
          rw [hg0] at hold
          have hold' : c' ∈ s0 ↔ g' ∈ h.subs c' := by
            constructor
            · intro hm
              exact hold.mp ⟨s0, rfl, hm⟩
            · intro hm
              rcases hold.mpr hm with ⟨s, hs, hm'⟩
              cases hs
              exact hm'
          by_cases hcc : c' = c
          · subst hcc
            rw [Function.update_same, Finset.mem_erase]
            constructor
            · rintro ⟨s, hs, hm⟩
              by_cases he : s0.erase c' = ∅
              · rw [if_pos he] at hs
                cases hs
              · rw [if_neg he] at hs
                cases hs
                exact absurd rfl (Finset.mem_erase.mp hm).1
            · rintro ⟨hne, _⟩
              exact absurd rfl hne
          · rw [Function.update_noteq hcc]
            constructor
            · rintro ⟨s, hs, hm⟩
              by_cases he : s0.erase c = ∅
              · rw [if_pos he] at hs
                cases hs
              · rw [if_neg he] at hs
                cases hs
                exact hold'.mp (Finset.mem_of_mem_erase hm)
            · intro hm
              have hm0 : c' ∈ s0 := hold'.mpr hm
              have hm1 : c' ∈ s0.erase c := Finset.mem_erase.mpr ⟨hcc, hm0⟩
              have he : ¬ s0.erase c = ∅ := fun hh => by
                rw [hh] at hm1
                simp at hm1
              exact ⟨s0.erase c, by rw [if_neg he], hm1⟩
        · rw [Function.update_noteq hgg]
          by_cases hcc : c' = c
          · subst hcc
            rw [Function.update_same, Finset.mem_erase]
            have hold := hA c' hc' g'
            constructor
            · intro hx
              exact ⟨hgg, hold.mp hx⟩
            · rintro ⟨_, hm⟩
              exact hold.mpr hm
          · rw [Function.update_noteq hcc]
            exact hA c' hc' g'
      · intro g' s hgs
        rw [hred] at hgs
        by_cases hgg : g' = g
        · subst hgg
          rw [Function.update_same] at hgs
          by_cases he : s0.erase c = ∅
          · rw [if_pos he] at hgs
            cases hgs
          · rw [if_neg he] at hgs
            cases hgs
            exact Finset.nonempty_iff_ne_empty.mpr he
        · rw [Function.update_noteq hgg] at hgs
          exact hB g' s hgs
      · intro x hx
        obtain ⟨hs, hbs⟩ := hE x hx
        have hxc : x ≠ c := fun hh => hx (hh ▸ hc)
        refine ⟨?_, ?_⟩
        · rw [hreds, Function.update_noteq hxc]
          exact hs
        · intro g' s hgs
          rw [hred] at hgs
          by_cases hgg : g' = g
          · subst hgg
            rw [Function.update_same] at hgs
            by_cases he : s0.erase c = ∅
            · rw [if_pos he] at hgs
              cases hgs
            · rw [if_neg he] at hgs
              cases hgs
              intro hm
              exact hbs g' s0 hg0 (Finset.mem_of_mem_erase hm)
          · rw [Function.update_noteq hgg] at hgs
            exact hbs g' s hgs

theorem hubInv_register (R : List Nat) (h : HubState) (c : Nat)
    (hInv : HubInv R h) (hc : c ∉ R) : HubInv (c :: R) (RegisterClient h c) := by
  obtain ⟨hA, hB, hC, hD, hE⟩ := hInv
  refine ⟨?_, hB, ?_, ?_, ?_⟩
  · intro c' hc' g
    rcases Finset.mem_insert.mp hc' with rfl | hcl
    · obtain ⟨hs, hbs⟩ := hE c' hc
      constructor
      · rintro ⟨s, hgs, hm⟩
        exact absurd hm (hbs g s hgs)
      · intro hm
        rw [show (RegisterClient h c').subs = h.subs from rfl, hs] at hm
        simp at hm
    · exact hA c' hcl g
  · intro x
    show h.closedCount x = _
    by_cases hxc : x = c
    · subst hxc
      rw [hC x]
      simp [hc, RegisterClient]
    · rw [hC x]
      show _ = if x ∈ c :: R ∧ x ∉ insert c h.clients then 1 else 0
      simp only [List.mem_cons, Finset.mem_insert, hxc, false_or]
  · intro c' hc'
    rcases Finset.mem_insert.mp hc' with rfl | hcl
    · exact List.mem_cons_self _ _
    · exact List.mem_cons_of_mem _ (hD c' hcl)
  · intro x hx
    have hx1 : x ∉ R := fun hh => hx (List.mem_cons_of_mem _ hh)
    exact hE x hx1

theorem hubInv_unregister (R : List Nat) (h : HubState) (c : Nat)
    (hInv : HubInv R h) : HubInv R (UnregisterClient h c) := by
  by_cases hmem : c ∈ h.clients
  · obtain ⟨hA, hB, hC, hD, hE⟩ := hInv
    have hcR : c ∈ R := hD c hmem
    have hu : UnregisterClient h c =
        { clients := h.clients.erase c
          groups := fun g =>
            if g ∈ h.subs c then bucketErase (h.groups g) c else h.groups g
          subs := h.subs
          closedCount := Function.update h.closedCount c (h.closedCount c + 1) } := by
      unfold UnregisterClient
      rw [if_pos hmem]
    rw [hu]
    refine ⟨?_, ?_, ?_, ?_, ?_⟩
    · intro c' hc' g
      have hcc : c' ≠ c := (Finset.mem_erase.mp hc').1
      have hcl : c' ∈ h.clients := (Finset.mem_erase.mp hc').2
      show (∃ s, (if g ∈ h.subs c then bucketErase (h.groups g) c else h.groups g) = some s
          ∧ c' ∈ s) ↔ g ∈ h.subs c'
      by_cases hgsub : g ∈ h.subs c
      · rw [if_pos hgsub]
        rcases (hA c hmem g).mpr hgsub with ⟨s0, hg0, hcs0⟩
        rw [hg0, bucketErase_some]
        have hold := hA c' hcl g
        rw [hg0] at hold
        have hold' : c' ∈ s0 ↔ g ∈ h.subs c' := by
          constructor
          · intro hm
            exact hold.mp ⟨s0, rfl, hm⟩
          · intro hm
            rcases hold.mpr hm with ⟨s, hs, hm'⟩
            cases hs
            exact hm'
        constructor
        · rintro ⟨s, hs, hm⟩
          by_cases he : s0.erase c = ∅
          · rw [if_pos he] at hs
            cases hs
          · rw [if_neg he] at hs
            cases hs
            exact hold'.mp (Finset.mem_of_mem_erase hm)
        · intro hm
          have hm0 : c' ∈ s0 := hold'.mpr hm
          have hm1 : c' ∈ s0.erase c := Finset.mem_erase.mpr ⟨hcc, hm0⟩
          have he : ¬ s0.erase c = ∅ := fun hh => by
            rw [hh] at hm1
            simp at hm1
          exact ⟨s0.erase c, by rw [if_neg he], hm1⟩
      · rw [if_neg hgsub]
        exact hA c' hcl g
    · intro g s hgs
      replace hgs : (if g ∈ h.subs c then bucketErase (h.groups g) c else h.groups g)
          = some s := hgs
      by_cases hgsub : g ∈ h.subs c
      · rw [if_pos hgsub] at hgs
        cases hg0 : h.groups g with
        | none =>
            rw [hg0, bucketErase_none] at hgs
            cases hgs
        | some s0 =>
            rw [hg0, bucketErase_some] at hgs
            by_cases he : s0.erase c = ∅
            · rw [if_pos he] at hgs
              cases hgs
            · rw [if_neg he] at hgs
              cases hgs
              exact Finset.nonempty_iff_ne_empty.mpr he
      · rw [if_neg hgsub] at hgs
        exact hB g s hgs
    · intro x
      by_cases hxc : x = c
      · subst hxc
        show Function.update h.closedCount x (h.closedCount x + 1) x = _
        rw [Function.update_same, hC x]
        simp [hmem, hcR, Finset.not_mem_erase]
      · show Function.update h.closedCount c (h.closedCount c + 1) x = _
        rw [Function.update_noteq hxc, hC x]
        simp only [Finset.mem_erase, hxc, true_and, not_and, Ne, not_false_eq_true]
    · intro c' hc'
      exact hD c' (Finset.mem_erase.mp hc').2
    · intro x hx
      obtain ⟨hs, hbs⟩ := hE x hx
      refine ⟨hs, ?_⟩
      intro g s hgs
      replace hgs : (if g ∈ h.subs c then bucketErase (h.groups g) c else h.groups g)
          = some s := hgs
      by_cases hgsub : g ∈ h.subs c
      · rw [if_pos hgsub] at hgs
        cases hg0 : h.groups g with
        | none =>
            rw [hg0, bucketErase_none] at hgs
            cases hgs
        | some s0 =>
            rw [hg0, bucketErase_some] at hgs
            by_cases he : s0.erase c = ∅
            · rw [if_pos he] at hgs
              cases hgs
            · rw [if_neg he] at hgs
              cases hgs
              intro hm
              exact hbs g s0 hg0 (Finset.mem_of_mem_erase hm)
      · rw [if_neg hgsub] at hgs
        exact hbs g s hgs
  · rw [show UnregisterClient h c = h from by unfold UnregisterClient; rw [if_neg hmem]]
    exact hInv

theorem hubInv_shutdown (R : List Nat) (h : HubState)
    (hInv : HubInv R h) : HubInv R (ShutdownHub h) := by
  obtain ⟨hA, hB, hC, hD, hE⟩ := hInv
  refine ⟨?_, ?_, ?_, ?_, ?_⟩
  · intro c' hc'
    exact absurd hc' (Finset.not_mem_empty c')
  · intro g s hgs
    cases hgs
  · intro x
    show (if x ∈ h.clients then h.closedCount x + 1 else h.closedCount x) = _
    by_cases hxc : x ∈ h.clients
    · rw [if_pos hxc, hC x]
      simp [hxc, hD x hxc, ShutdownHub]
    · rw [if_neg hxc, hC x]
      simp [hxc, ShutdownHub]
  · intro c' hc'
    exact absurd hc' (Finset.not_mem_empty c')
  · intro x hx
    obtain ⟨hs, _⟩ := hE x hx
    refine ⟨hs, ?_⟩
    intro g s hgs
    cases hgs

theorem HubInv_congr (R R' : List Nat) (h : HubState)
    (hRR : ∀ x, x ∈ R ↔ x ∈ R') (hInv : HubInv R h) : HubInv R' h := by
  obtain ⟨hA, hB, hC, hD, hE⟩ := hInv
  refine ⟨hA, hB, ?_, ?_, ?_⟩
  · intro x
    rw [hC x]
    simp only [propext (hRR x)]
  · intro c hc
    exact (hRR c).mp (hD c hc)
  · intro x hx
    exact hE x (fun hh => hx ((hRR x).mp hh))

theorem runHub_inv_aux : ∀ (ops : List HubOp) (seen : List Nat) (h : HubState),
    validFrom seen ops = true → HubInv seen h →
    HubInv (regs ops ++ seen) (ops.foldl hubStep h) := by
  intro ops
  induction ops with
  | nil =>
      intro seen h _ hInv
      simpa [regs] using hInv
  | cons op rest ih =>
      intro seen h hv hInv
      cases op with
      | register c =>
          replace hv : (!(seen.contains c) && validFrom (c :: seen) rest) = true := hv
          rw [Bool.and_eq_true] at hv
          have hcnot : c ∉ seen := by simpa using hv.1
          have h1 := hubInv_register seen h c hInv hcnot
          have h2 := ih (c :: seen) _ hv.2 h1
          refine HubInv_congr _ _ _ ?_ h2
          intro x
          show x ∈ regs rest ++ c :: seen ↔ x ∈ regs (HubOp.register c :: rest) ++ seen
          rw [show regs (HubOp.register c :: rest) = c :: regs rest from rfl]
          simp only [List.mem_append, List.mem_cons]
          tauto
      | unregister c =>
          replace hv : validFrom seen rest = true := hv
          exact ih seen _ hv (hubInv_unregister seen h c hInv)
      | join c g =>
          replace hv : (seen.contains c && validFrom seen rest) = true := hv
          rw [Bool.and_eq_true] at hv
          have hcmem : c ∈ seen := by simpa using hv.1
          exact ih seen _ hv.2 (hubInv_join seen h c g hInv hcmem)
      | leave c g =>
          replace hv : (seen.contains c && validFrom seen rest) = true := hv
          rw [Bool.and_eq_true] at hv
          have hcmem : c ∈ seen := by simpa using hv.1
          exact ih seen _ hv.2 (hubInv_leave seen h c g hInv hcmem)
      | shutdown =>
          replace hv : validFrom seen rest = true := hv
          exact ih seen _ hv (hubInv_shutdown seen h hInv)

/-- C8: after any implementable sequence of hub operations, a registered
connection is in a group bucket exactly when the group is in its own
subscription set; every bucket in the map is non-empty (empty buckets are
removed); a connection's queue has been closed exactly once when it was
registered and no longer is, and never otherwise; and unregistering a
registered connection removes it from every bucket and closes its queue for
exactly the first time. -/
theorem hub_membership_invariant (ops : List HubOp) (hv : validFrom [] ops = true) :
    (∀ c ∈ (runHub ops).clients, ∀ g : Str,
      (∃ s, (runHub ops).groups g = some s ∧ c ∈ s) ↔ g ∈ (runHub ops).subs c) ∧
    (∀ g s, (runHub ops).groups g = some s → s.Nonempty) ∧
    (∀ c : Nat, (runHub ops).closedCount c =
      if c ∈ regs ops ∧ c ∉ (runHub ops).clients then 1 else 0) ∧
    (∀ c ∈ (runHub ops).clients,
      (∀ g s, (UnregisterClient (runHub ops) c).groups g = some s → c ∉ s) ∧
      (UnregisterClient (runHub ops) c).closedCount c = 1) := by
  have hInv0 : HubInv [] initHub := by
    refine ⟨?_, ?_, ?_, ?_, ?_⟩
    · intro c hc
      exact absurd hc (Finset.not_mem_empty c)
    · intro g s hgs
      cases hgs
    · intro x
      simp [initHub]
    · intro c hc
      exact absurd hc (Finset.not_mem_empty c)
    · intro x _
      exact ⟨rfl, fun g s hgs => by cases hgs⟩
  have hInv := runHub_inv_aux ops [] initHub hv hInv0
  rw [List.append_nil] at hInv
  obtain ⟨hA, hB, hC, hD, hE⟩ := hInv
  refine ⟨fun c hc g => hA c hc g, hB, hC, ?_⟩
  intro c hc
  have hu : (UnregisterClient (runHub ops) c).groups = fun g =>
      if g ∈ (runHub ops).subs c then bucketErase ((runHub ops).groups g) c
      else (runHub ops).groups g := by
    unfold UnregisterClient
    rw [if_pos hc]
  have hu2 : (UnregisterClient (runHub ops) c).closedCount =
      Function.update (runHub ops).closedCount c ((runHub ops).closedCount c + 1) := by
    unfold UnregisterClient
    rw [if_pos hc]
  constructor
  · intro g s hgs
    rw [hu] at hgs
    replace hgs : (if g ∈ (runHub ops).subs c then bucketErase ((runHub ops).groups g) c
        else (runHub ops).groups g) = some s := hgs
    by_cases hgsub : g ∈ (runHub ops).subs c
    · rw [if_pos hgsub] at hgs
      cases hg0 : (runHub ops).groups g with
      | none =>
          rw [hg0, bucketErase_none] at hgs
          cases hgs
      | some s0 =>
          rw [hg0, bucketErase_some] at hgs
          by_cases he : s0.erase c = ∅
          · rw [if_pos he] at hgs
            cases hgs
          · rw [if_neg he] at hgs
            cases hgs
            exact Finset.not_mem_erase c s0
    · rw [if_neg hgsub] at hgs
      intro hm
      exact hgsub ((hA c hc g).mp ⟨s, hgs, hm⟩)
  · rw [hu2, Function.update_same]
    have hC' : (runHub ops).closedCount c =
        if c ∈ regs ops ∧ c ∉ (runHub ops).clients then 1 else 0 := hC c
    rw [hC']
    simp [hc]

/-- Witness for `hub_membership_invariant` on a register, join, unregister
trace: the evicted connection's queue has been closed exactly once. -/
theorem hub_membership_invariant_witness :
    (runHub [HubOp.register 1, HubOp.join 1 (str "g1"), HubOp.unregister 1]).closedCount 1 =
      if 1 ∈ regs [HubOp.register 1, HubOp.join 1 (str "g1"), HubOp.unregister 1] ∧
        1 ∉ (runHub [HubOp.register 1, HubOp.join 1 (str "g1"), HubOp.unregister 1]).clients
      then 1 else 0 :=
  (hub_membership_invariant [HubOp.register 1, HubOp.join 1 (str "g1"), HubOp.unregister 1]
    (by decide)).2.2.1 1

/-! ## Upstream frame handling (claim C6): internal/ws/client.go -/

/-- A parsed upstream frame (`parseUpstreamMessage` in protocol.go returns
exactly these three request shapes, or an error). -/
inductive UpMsg where
  | join (g : Str) (ackId : Option Nat)
  | leave (g : Str) (ackId : Option Nat)
  | ping
deriving DecidableEq

/-- A frame enqueued on the connection's outbound queue by `handleMessage`. -/
inductive OutMsg where
  | ack (id : Nat) (success : Bool)
  | pong
deriving DecidableEq

/-- Model of `Client.handleMessage` (client.go): `none` models a frame that failed to
parse (an unknown type or an undecodable payload), which is logged and
dropped.  Returns the updated hub state and the frames enqueued for this
connection. -/
def handleMessage (validator : Str → Bool) (h : HubState) (c : Nat) (msg : Option UpMsg) :
    HubState × List OutMsg :=
  match msg with
  | none => (h, [])
  | some (.join g ackId) =>
      if validator g then
        (JoinGroup h c g, match ackId with | some id => [.ack id true] | none => [])
      else
        (h, match ackId with | some id => [.ack id false] | none => [])
  | some (.leave g ackId) =>
      (LeaveGroup h c g, match ackId with | some id => [.ack id true] | none => [])
  | some .ping => (h, [.pong])

/-- C6: a JOIN for a valid group adds the membership (to the bucket and to
the client's own set) and enqueues ACK(success=true) exactly when ack_id is
set; a JOIN for an invalid group changes nothing and enqueues
ACK(success=false) exactly when ack_id is set; a LEAVE removes the membership
and acks success regardless of prior membership; a PING enqueues a PONG; an
unparseable or unrecognized frame changes no state and enqueues nothing, so
the connection stays as it was. -/
theorem handleMessage_spec (validator : Str → Bool) (h : HubState) (c : Nat) :
    (∀ g ackId, validator g = true →
      handleMessage validator h c (some (.join g ackId)) =
        (JoinGroup h c g, match ackId with | some id => [OutMsg.ack id true] | none => []) ∧
      c ∈ ((JoinGroup h c g).groups g).getD ∅ ∧ g ∈ (JoinGroup h c g).subs c) ∧
    (∀ g ackId, validator g = false →
      handleMessage validator h c (some (.join g ackId)) =
        (h, match ackId with | some id => [OutMsg.ack id false] | none => [])) ∧
    (∀ g ackId,
      handleMessage validator h c (some (.leave g ackId)) =
        (LeaveGroup h c g, match ackId with | some id => [OutMsg.ack id true] | none => []) ∧
      (∀ s, (LeaveGroup h c g).groups g = some s → c ∉ s) ∧
      g ∉ (LeaveGroup h c g).subs c) ∧
    (handleMessage validator h c (some .ping) = (h, [OutMsg.pong])) ∧
    (handleMessage validator h c none = (h, [])) := by
  refine ⟨?_, ?_, ?_, rfl, rfl⟩
  · intro g ackId hval
    refine ⟨by show (if validator g = true then _ else _) = _; rw [if_pos hval], ?_, ?_⟩
    · show c ∈ (Function.update h.groups g (some (insert c ((h.groups g).getD ∅))) g).getD ∅
      rw [Function.update_same]
      exact Finset.mem_insert_self c _
    · show g ∈ Function.update h.subs c (insert g (h.subs c)) c
      rw [Function.update_same]
      exact Finset.mem_insert_self g _
  · intro g ackId hval
    show (if validator g = true then _ else _) = _
    rw [if_neg (by rw [hval]; exact Bool.noConfusion)]
  · intro g ackId
    refine ⟨rfl, ?_, ?_⟩
    · intro s hgs
      cases hg0 : h.groups g with
      | none =>
          have : (LeaveGroup h c g).groups = h.groups := by
            unfold LeaveGroup
            rw [hg0]
          rw [this, hg0] at hgs
          cases hgs
      | some s0 =>
          have : (LeaveGroup h c g).groups = Function.update h.groups g
              (if s0.erase c = ∅ then none else some (s0.erase c)) := by
            unfold LeaveGroup
            rw [hg0]
          rw [this, Function.update_same] at hgs
          by_cases he : s0.erase c = ∅
          · rw [if_pos he] at hgs
            cases hgs
          · rw [if_neg he] at hgs
            cases hgs
            exact Finset.not_mem_erase c s0
    · show g ∉ Function.update h.subs c ((h.subs c).erase g) c
      rw [Function.update_same]
      exact Finset.not_mem_erase g _

/-- Witness for `handleMessage_spec`: joining a valid classic group with
ack_id 7 updates the hub and acks success. -/
theorem handleMessage_spec_witness :
    handleMessage IsValidClassicGroup initHub 1
        (some (.join (str "blue_SPX_classic_gex_full") (some 7))) =
      (JoinGroup initHub 1 (str "blue_SPX_classic_gex_full"), [OutMsg.ack 7 true]) :=
  ((handleMessage_spec IsValidClassicGroup initHub 1).1
    (str "blue_SPX_classic_gex_full") (some 7) (by decide)).1

/-! ## Greek group-name parsing (claim C9): internal/ws/greek_streamer.go -/

/-- Model of `strings.Index`: index of the first occurrence of `pat` in `s`, `none`
when absent (`-1` in Go). -/
def strIndex (pat : Str) : Str → Option Nat
  | [] => if pat = [] then some 0 else none
  | ch :: rest =>
      if pat <+: (ch :: rest) then some 0
      else (strIndex pat rest).map (fun i => i + 1)

/-- Model of `extractGreekTickerAndCategory` (greek_streamer.go): locate the first
`_state_`, split the part before it at its first underscore, validate the
category against the four zero-DTE Greek categories. -/
def extractGreekTickerAndCategory (group : Str) : Str × Str :=
  match strIndex (str "_state_") group with
  | none => ([], [])
  | some separatorIdx =>
      let prefixAndTicker := group.take separatorIdx
      match strIndex (str "_") prefixAndTicker with
      | none => ([], [])
      | some firstUnderscore =>
          if prefixAndTicker.length ≤ firstUnderscore + 1 then ([], [])
          else
            let ticker := prefixAndTicker.drop (firstUnderscore + 1)
            let category := group.drop (separatorIdx + (str "_state_").length)
            if category = str "delta_zero" ∨ category = str "gamma_zero" ∨
               category = str "vanna_zero" ∨ category = str "charm_zero"
            then (ticker, category) else ([], [])

theorem strIndex_eq_some_iff (pat : Str) :
    ∀ (s : Str) (i : Nat), strIndex pat s = some i ↔
      (pat <+: s.drop i ∧ ∀ j < i, ¬ pat <+: s.drop j) := by
  intro s
  induction s with
  | nil =>
      intro i
      constructor
      · intro h
        replace h : (if pat = [] then some 0 else none) = some i := h
        by_cases hp : pat = []
        · rw [if_pos hp] at h
          cases h
          exact ⟨by simp [hp], by omega⟩
        · rw [if_neg hp] at h
          cases h
      · rintro ⟨h1, h2⟩
        have hp : pat = [] := List.prefix_nil.mp (by simpa using h1)
        have hi : i = 0 := by
          by_contra hi0
          exact h2 0 (by omega) (by simp [hp])
        replace hi : some 0 = some i := by rw [hi]
        simpa [strIndex, hp] using hi
  | cons a rest ih =>
      intro i
      constructor
      · intro h
        replace h : (if pat <+: (a :: rest) then some 0
            else (strIndex pat rest).map (fun i => i + 1)) = some i := h
        by_cases hp : pat <+: (a :: rest)
        · rw [if_pos hp] at h
          cases h
          exact ⟨by simpa using hp, by omega⟩
        · rw [if_neg hp] at h
          rcases Option.map_eq_some'.mp h with ⟨i', hi', rfl⟩
          obtain ⟨hpre, hmin⟩ := (ih i').mp hi'
          refine ⟨by simpa using hpre, ?_⟩
          intro j hj
          cases j with
          | zero => simpa using hp
          | succ j' =>
              have : j' < i' := by omega
              simpa using hmin j' this
      · rintro ⟨h1, h2⟩
        show (if pat <+: (a :: rest) then some 0
            else (strIndex pat rest).map (fun i => i + 1)) = some i
        by_cases hp : pat <+: (a :: rest)
        · rw [if_pos hp]
          have hi : i = 0 := by
            by_contra hi0
            exact h2 0 (by omega) (by simpa using hp)
          rw [hi]
        · rw [if_neg hp]
          cases i with
          | zero => exact absurd (by simpa using h1) hp
          | succ i' =>
              have hpre : pat <+: rest.drop i' := by simpa using h1
              have hmin : ∀ j < i', ¬ pat <+: rest.drop j := by
                intro j hj hpj
                exact h2 (j + 1) (by omega) (by simpa using hpj)
              rw [(ih i').mpr ⟨hpre, hmin⟩]
              rfl

theorem strIndex_underscore (p t : Str) (hp : '_' ∉ p) :
    strIndex (str "_") (p ++ '_' :: t) = some p.length := by
  rw [strIndex_eq_some_iff]
  constructor
  · rw [List.drop_left]
    exact ⟨t, rfl⟩
  · intro j hj hpre
    rw [List.drop_append_of_le_length (le_of_lt hj)] at hpre
    rw [List.drop_eq_getElem_cons hj] at hpre
    replace hpre : ('_' : Char) :: [] <+: p[j] :: (p.drop (j + 1) ++ '_' :: t) := hpre
    have := (List.cons_prefix_cons.mp hpre).1
    exact hp (this ▸ List.getElem_mem hj)

theorem sep_not_at (p t c : Str) (hp : '_' ∉ p)
    (h1 : ¬ (str "state_" <+: t))
    (h2 : ¬ (str "_state_" <:+: t))
    (h3 : ¬ (str "_state" <:+ ('_' :: t)))
    (j : Nat) (hj : j < p.length + 1 + t.length) :
    ¬ (str "_state_" <+: (p ++ '_' :: (t ++ (str "_state_" ++ c))).drop j) := by
  intro hpre
  rcases lt_or_ge j p.length with hjp | hjp
  · rw [List.drop_append_of_le_length (le_of_lt hjp)] at hpre
    rw [List.drop_eq_getElem_cons hjp] at hpre
    replace hpre : ('_' : Char) :: str "state_" <+:
        p[j] :: (p.drop (j + 1) ++ '_' :: (t ++ (str "_state_" ++ c))) := hpre
    have := (List.cons_prefix_cons.mp hpre).1
    exact hp (this ▸ List.getElem_mem hjp)
  · set k := j - p.length with hk
    have hkle : k ≤ t.length := by omega
    have hdrop : (p ++ '_' :: (t ++ (str "_state_" ++ c))).drop j =
        (('_' :: t).drop k) ++ (str "_state_" ++ c) := by
      have hj' : j = p.length + k := by omega
      rw [hj', ← List.drop_drop, List.drop_left,
        show ('_' :: (t ++ (str "_state_" ++ c))) = ('_' :: t) ++ (str "_state_" ++ c) from rfl]
      exact List.drop_append_of_le_length (by rw [List.length_cons]; omega)
    rw [hdrop] at hpre
    set v := ('_' :: t).drop k with hv
    have hvsuf : v <:+ ('_' :: t) := List.drop_suffix k _
    have hvlen : v.length = 1 + t.length - k := by
      rw [hv, List.length_drop, List.length_cons]
      omega
    have hvpos : 1 ≤ v.length := by omega
    rcases le_or_lt 7 v.length with hbig | hsmall
    · have hsepv : str "_state_" <+: v :=
        List.prefix_of_prefix_length_le hpre (List.prefix_append v _) (by simpa using hbig)
      have hinf : str "_state_" <:+: ('_' :: t) := hsepv.isInfix.trans hvsuf.isInfix
      rcases List.infix_cons_iff.mp hinf with hcase | hcase
      · replace hcase : ('_' : Char) :: str "state_" <+: '_' :: t := hcase
        exact h1 (List.cons_prefix_cons.mp hcase).2
      · exact h2 hcase
    · have htake : (v ++ (str "_state_" ++ c)).take 7 = str "_state_" := by
        have := List.prefix_iff_eq_take.mp hpre
        exact this.symm
      rw [List.take_append_eq_append_take, List.take_of_length_le (by omega)] at htake
      have htake2 : (str "_state_" ++ c).take (7 - v.length) =
          (str "_state_").take (7 - v.length) := by
        rw [List.take_append_eq_append_take]
        rw [show (7 - v.length) - (str "_state_").length = 0 from by
          rw [show ((str "_state_").length) = 7 from by decide]
          omega]
        simp
      rw [htake2] at htake
      have hveq : v = (str "_state_").take v.length := by
        have := congrArg (List.take v.length) htake
        rw [List.take_append_eq_append_take, List.take_length, Nat.sub_self] at this
        simpa using this
      have hdropeq : (str "_state_").take (7 - v.length) = (str "_state_").drop v.length := by
        have := congrArg (List.drop v.length) htake
        rw [List.drop_left' rfl] at this
        exact this
      interval_cases hvl : v.length
      · exact absurd hdropeq (by decide)
      · exact absurd hdropeq (by decide)
      · exact absurd hdropeq (by decide)
      · exact absurd hdropeq (by decide)
      · exact absurd hdropeq (by decide)
      · rw [show (str "_state_").take 6 = str "_state" from by decide] at hveq
        exact h3 (hveq ▸ hvsuf)

theorem strIndex_sep (p t c : Str) (hp : '_' ∉ p)
    (h1 : ¬ (str "state_" <+: t))
    (h2 : ¬ (str "_state_" <:+: t))
    (h3 : ¬ (str "_state" <:+ ('_' :: t))) :
    strIndex (str "_state_") (p ++ '_' :: (t ++ (str "_state_" ++ c)))
      = some (p.length + 1 + t.length) := by
  rw [strIndex_eq_some_iff]
  refine ⟨?_, fun j hj => sep_not_at p t c hp h1 h2 h3 j hj⟩
  rw [show p ++ '_' :: (t ++ (str "_state_" ++ c))
      = (p ++ '_' :: t) ++ (str "_state_" ++ c) from by simp]
  rw [List.drop_left' (by rw [List.length_append, List.length_cons]; omega)]
  exact List.prefix_append _ _

theorem extractGreek_forward (p t c : Str) (hp : '_' ∉ p) (ht : t ≠ [])
    (hc : c = str "delta_zero" ∨ c = str "gamma_zero" ∨
      c = str "vanna_zero" ∨ c = str "charm_zero")
    (h1 : ¬ (str "state_" <+: t)) (h2 : ¬ (str "_state_" <:+: t))
    (h3 : ¬ (str "_state" <:+ ('_' :: t))) :
    extractGreekTickerAndCategory (p ++ str "_" ++ t ++ str "_state_" ++ c) = (t, c) := by
  have hA : p ++ str "_" ++ t ++ str "_state_" ++ c
      = p ++ '_' :: (t ++ (str "_state_" ++ c)) := by
    rw [show (str "_") = ['_'] from rfl]
    simp [List.append_assoc]
  rw [hA]
  have hPT : (p ++ '_' :: (t ++ (str "_state_" ++ c))).take (p.length + 1 + t.length)
      = p ++ '_' :: t := by
    rw [show p ++ '_' :: (t ++ (str "_state_" ++ c))
        = (p ++ '_' :: t) ++ (str "_state_" ++ c) from by simp]
    exact List.take_left' (by rw [List.length_append, List.length_cons]; omega)
  have hTick : (p ++ '_' :: t).drop (p.length + 1) = t := by
    rw [show p ++ '_' :: t = (p ++ ['_']) ++ t from by simp]
    exact List.drop_left' (by simp)
  have hCat : (p ++ '_' :: (t ++ (str "_state_" ++ c))).drop
      (p.length + 1 + t.length + (str "_state_").length) = c := by
    rw [show p ++ '_' :: (t ++ (str "_state_" ++ c))
        = ((p ++ '_' :: t) ++ str "_state_") ++ c from by simp]
    refine List.drop_left' ?_
    rw [List.length_append, List.length_append, List.length_cons,
      show ((str "_state_").length) = 7 from by decide]
    omega
  have hlenPT : ¬ ((p ++ '_' :: t).length ≤ p.length + 1) := by
    rw [List.length_append, List.length_cons]
    have := List.length_pos.mpr ht
    omega
  unfold extractGreekTickerAndCategory
  rw [strIndex_sep p t c hp h1 h2 h3]
  simp only
  rw [hPT, strIndex_underscore p t hp]
  simp only
  rw [if_neg hlenPT, hTick, hCat]
  rcases hc with rfl | rfl | rfl | rfl
  · rw [if_pos (Or.inl rfl)]
  · rw [if_pos (Or.inr (Or.inl rfl))]
  · rw [if_pos (Or.inr (Or.inr (Or.inl rfl)))]
  · rw [if_pos (Or.inr (Or.inr (Or.inr rfl)))]

theorem extractGreek_backward (g t c : Str)
    (h : extractGreekTickerAndCategory g = (t, c)) (ht : t ≠ []) :
    ∃ p, '_' ∉ p ∧ ¬ (str "_state_" <:+: t) ∧
      (c = str "delta_zero" ∨ c = str "gamma_zero" ∨
        c = str "vanna_zero" ∨ c = str "charm_zero") ∧
      g = p ++ str "_" ++ t ++ str "_state_" ++ c := by
  unfold extractGreekTickerAndCategory at h
  cases hsi : strIndex (str "_state_") g with
  | none =>
      rw [hsi] at h
      have h1 : ([] : Str) = t := congrArg Prod.fst h
      exact absurd h1.symm ht
  | some si =>
      rw [hsi] at h
      simp only at h
      cases hfu : strIndex (str "_") (g.take si) with
      | none =>
          rw [hfu] at h
          have h1 : ([] : Str) = t := congrArg Prod.fst h
          exact absurd h1.symm ht
      | some fu =>
          rw [hfu] at h
          simp only at h
          by_cases hlen : (g.take si).length ≤ fu + 1
          · rw [if_pos hlen] at h
            have h1 : ([] : Str) = t := congrArg Prod.fst h
            exact absurd h1.symm ht
          · rw [if_neg hlen] at h
            by_cases hcat : g.drop (si + (str "_state_").length) = str "delta_zero" ∨
                g.drop (si + (str "_state_").length) = str "gamma_zero" ∨
                g.drop (si + (str "_state_").length) = str "vanna_zero" ∨
                g.drop (si + (str "_state_").length) = str "charm_zero"
            · rw [if_pos hcat] at h
              have hT : (g.take si).drop (fu + 1) = t := congrArg Prod.fst h
              have hC : g.drop (si + (str "_state_").length) = c := congrArg Prod.snd h
              obtain ⟨hsep_pre, hsep_min⟩ := (strIndex_eq_some_iff _ g si).mp hsi
              obtain ⟨hu_pre, hu_min⟩ := (strIndex_eq_some_iff _ (g.take si) fu).mp hfu
              have hfu_lt : fu < (g.take si).length := by
                by_contra hge
                rw [List.drop_eq_nil_of_le (by omega)] at hu_pre
                exact absurd (List.prefix_nil.mp hu_pre) (by decide)
              have hsi_le : si ≤ g.length := by
                by_contra hgt
                rw [List.drop_eq_nil_of_le (by omega)] at hsep_pre
                exact absurd (List.prefix_nil.mp hsep_pre) (by decide)
              have hQlen : (g.take si).length = si := by
                rw [List.length_take]
                omega
              have hp : '_' ∉ (g.take si).take fu := by
                intro hmem
                obtain ⟨j, hj, hjeq⟩ := List.mem_iff_getElem.mp hmem
                have hjlt : j < fu := by
                  rw [List.length_take] at hj
                  omega
                apply hu_min j hjlt
                rw [show (str "_") = ['_'] from rfl,
                  List.drop_eq_getElem_cons (show j < (g.take si).length by omega)]
                refine List.cons_prefix_cons.mpr ⟨?_, List.nil_prefix⟩
                rw [← hjeq, List.getElem_take]
              have hufirst : (g.take si)[fu] = '_' := by
                rw [show (str "_") = ['_'] from rfl,
                  List.drop_eq_getElem_cons hfu_lt] at hu_pre
                exact ((List.cons_prefix_cons.mp hu_pre).1).symm
              have hQdec : g.take si = (g.take si).take fu ++ '_' :: t := by
                conv_lhs => rw [← List.take_append_drop fu (g.take si)]
                rw [List.drop_eq_getElem_cons hfu_lt, hufirst, hT]
              have hgdrop : g.drop si = str "_state_" ++ g.drop (si + (str "_state_").length) := by
                obtain ⟨r, hr⟩ := hsep_pre
                have hr7 : r = g.drop (si + (str "_state_").length) := by
                  have := congrArg (List.drop (str "_state_").length) hr
                  rw [List.drop_left, List.drop_drop] at this
                  exact this
                rw [← hr, hr7]
              have hgdec : g = (g.take si) ++ str "_state_" ++ g.drop (si + (str "_state_").length) := by
                conv_lhs => rw [← List.take_append_drop si g]
                rw [hgdrop, List.append_assoc]
              have htno : ¬ (str "_state_" <:+: t) := by
                intro hinf
                obtain ⟨s₁, s₂, hs⟩ := hinf
                have hpre' : str "_state_" <+: t.drop s₁.length := by
                  rw [← hs, List.append_assoc, List.drop_left]
                  exact List.prefix_append _ _
                have htdrop : t.drop s₁.length =
                    ((g.drop (fu + 1 + s₁.length)).take (si - (fu + 1 + s₁.length))) := by
                  rw [← hT, List.drop_drop, List.drop_take]
                have hpre2 : str "_state_" <+: g.drop (fu + 1 + s₁.length) := by
                  have h1 : str "_state_" <+:
                      (g.drop (fu + 1 + s₁.length)).take (si - (fu + 1 + s₁.length)) := by
                    rw [← htdrop]
                    exact hpre'
                  exact h1.trans ( List.take_prefix _ _)
                have hlent : 7 ≤ (t.drop s₁.length).length := by
                  have hl := hpre'.length_le
                  simpa using hl
                have htlen : t.length = si - (fu + 1) := by
                  rw [← hT, List.length_drop, hQlen]
                rw [List.length_drop] at hlent
                exact hsep_min (fu + 1 + s₁.length) (by omega) hpre2
              refine ⟨(g.take si).take fu, hp, htno, by rw [hC] at hcat; exact hcat, ?_⟩
              conv_lhs => rw [hgdec]
              rw [hQdec, hC, show (str "_") = ['_'] from rfl]
              simp only [List.append_assoc, List.singleton_append, List.cons_append]
              rw [List.take_left' (show (List.take fu (List.take si g)).length = fu from by
                rw [List.length_take]; omega)]
              simp
            · rw [if_neg hcat] at h
              have h1 : ([] : Str) = t := congrArg Prod.fst h
              exact absurd h1.symm ht

/-- C9 (amended): tickers with internal underscores parse back correctly
provided the ticker also does not start with `state_`, does not end with
`_state` (nor equal `state`, i.e. `_` ++ t must not end with `_state`), and
does not contain `_state_`; without the extra conditions the first `_state_`
occurrence the parser finds can straddle the ticker and the separator.  Every
successful parse is of the claimed form. -/
theorem greek_parser_spec :
    (∀ p t c : Str, '_' ∉ p → t ≠ [] →
      (c = str "delta_zero" ∨ c = str "gamma_zero" ∨
        c = str "vanna_zero" ∨ c = str "charm_zero") →
      ¬ (str "state_" <+: t) → ¬ (str "_state_" <:+: t) →
      ¬ (str "_state" <:+ ('_' :: t)) →
      extractGreekTickerAndCategory (p ++ str "_" ++ t ++ str "_state_" ++ c) = (t, c)) ∧
    (∀ g t c : Str, extractGreekTickerAndCategory g = (t, c) → t ≠ [] →
      ∃ p, '_' ∉ p ∧ ¬ (str "_state_" <:+: t) ∧
        (c = str "delta_zero" ∨ c = str "gamma_zero" ∨
          c = str "vanna_zero" ∨ c = str "charm_zero") ∧
        g = p ++ str "_" ++ t ++ str "_state_" ++ c) :=
  ⟨fun p t c hp ht hc h1 h2 h3 => extractGreek_forward p t c hp ht hc h1 h2 h3,
   fun g t c h ht => extractGreek_backward g t c h ht⟩

/-- Witness for `greek_parser_spec`: the spec's own example of a ticker with
an internal underscore round-trips. -/
theorem greek_parser_spec_witness :
    extractGreekTickerAndCategory
        (str "blue" ++ str "_" ++ str "ES_SPX" ++ str "_state_" ++ str "gamma_zero")
      = (str "ES_SPX", str "gamma_zero") :=
  greek_parser_spec.1 (str "blue") (str "ES_SPX") (str "gamma_zero")
    (by decide) (by decide) (Or.inr (Or.inl rfl)) (by decide) (by decide) (by decide)

/-- C9 counterexample: the ticker `ES_state` is non-empty and does not
contain the substring `_state_`, yet parsing
`blue_ES_state_state_delta_zero` fails (the parser locks on to the earlier,
straddling `_state_` occurrence and then rejects the leftover category),
instead of recovering `(ES_state, delta_zero)` as the claim states. -/
theorem greek_parser_overlap_case :
    str "blue_ES_state_state_delta_zero" =
      str "blue" ++ str "_" ++ str "ES_state" ++ str "_state_" ++ str "delta_zero" ∧
    ('_' ∉ str "blue") ∧ str "ES_state" ≠ ([] : Str) ∧
    ¬ (str "_state_" <:+: str "ES_state") ∧
    extractGreekTickerAndCategory (str "blue_ES_state_state_delta_zero") = ([], []) ∧
    ([] : Str) ≠ str "ES_state" := by
  refine ⟨by decide, by decide, by decide, by decide, by decide, by decide⟩

end GexFaker
